import Mathlib

/-!
A verification development for `pyx12/path.py`: the `X12Path` class, its
construction (parsing of an x12 path string), lazy canonical serialization,
mutation, equality/hash and containment operations.

Strings are modelled as `List Char` (`Str`), mirroring Python's sequence of
code points.  Python exceptions are modelled with `Option`: a `none` result
of `parse` models a raised `X12PathError`, a `none` result of `pop_loop`
models the `UnboundLocalError` on an empty loop list, and a `none` first
component of `format_refdes` models the `AttributeError` on the never
assigned `_seg_str` attribute.
-/

/-- Python strings are sequences of code points; we model them as lists of
characters. -/
abbrev Str := List Char

/-! ### Character classes of the regular expression `RX_PATH`

`re_seg_id = [A-Z][A-Z0-9]{1,2}`, `re_id_val = [A-Z0-9]+`,
`re_ele_idx = [0-9]{2}`, `re_subele_idx = [0-9]+`. -/

/-- The class `[A-Z]`. -/
def upperC (c : Char) : Bool := decide (65 ≤ c.toNat ∧ c.toNat ≤ 90)

/-- The class `[0-9]`. -/
def digitC (c : Char) : Bool := decide (48 ≤ c.toNat ∧ c.toNat ≤ 57)

/-- The class `[A-Z0-9]`. -/
def upperDigitC (c : Char) : Bool := upperC c || digitC c

/-- Numeric value of a digit character (Python `int` on a digit). -/
def digitVal (c : Char) : Nat := c.toNat - 48

/-- Python `int(s)` on a string of digit characters. -/
def digitsToNat (ds : Str) : Nat := ds.foldl (fun a c => a * 10 + digitVal c) 0

/-- The digit character of `n` (for `n < 10`). -/
def digitChar (n : Nat) : Char := Char.ofNat (48 + n)

/-- Decimal representation of a natural number, as produced by Python's
`'%i' % n`. -/
def natDigits (n : Nat) : Str :=
  if h : n < 10 then [digitChar n]
  else natDigits (n / 10) ++ [digitChar (n % 10)]
  termination_by n
  decreasing_by exact Nat.div_lt_self (by omega) (by omega)

/-- Python's `'%02i' % n`: the decimal representation left padded with `'0'`
to width two. -/
def pad2 (n : Nat) : Str := if n < 10 then '0' :: natDigits n else natDigits n

/-! ### Splitting and joining on the separator `'/'`

`splitSep` is Python `str.split('/')` (always at least one piece), `joinSep`
is Python `'/'.join`. -/

/-- Attach a character in front of the first piece of a split. -/
def consHead (c : Char) : List Str → List Str
  | [] => [[c]]
  | t :: ts => (c :: t) :: ts

/-- Python `s.split('/')`. -/
def splitSep : Str → List Str
  | [] => [[]]
  | c :: rest => if c = '/' then [] :: splitSep rest else consHead c (splitSep rest)

/-- Python `'/'.join(ts)`. -/
def joinSep : List Str → Str
  | [] => []
  | [t] => t
  | t :: ts => t ++ '/' :: joinSep ts

/-- The last element of a list of strings (`l[-1]` in Python), defaulting to
the empty string. -/
def lastD : List Str → Str
  | [] => []
  | [t] => t
  | _ :: ts => lastD ts

/-! ### The anchored pattern `RX_PATH`

`^(?P<seg_id>[A-Z][A-Z0-9]{1,2})?(\[(?P<id_val>[A-Z0-9]+)\])?`
`(?P<ele_idx>[0-9]{2})?(-(?P<subele_idx>[0-9]+))?$` compiled with `re.S`.
The matcher below implements the backtracking search of Python `re`:
each optional group prefers presence over absence, the `{1,2}` counter
prefers two repetitions over one, and on failure the rightmost choice is
revised first.  The runs matched by `[A-Z0-9]+` and `[0-9]+` are maximal;
a shorter run would leave a character of the same class next, which can
never satisfy the following `\]` respectively `$`, so maximal runs lose no
matches.  With `re.S` (and no `re.M`) the anchor `$` matches at the end of
the string or just before a final newline. -/

/-- The captured groups of a successful `RX_PATH` match. -/
structure RefMatch where
  seg_id : Option Str
  id_val : Option Str
  ele_idx : Option Str
  subele_idx : Option Str
  deriving Repr, DecidableEq

/-- Python's `$` anchor (no `re.M`): end of string or just before a final
newline. -/
def endOk (s : Str) : Bool := decide (s = [] ∨ s = ['\n'])

/-- Match `(-(?P<subele_idx>[0-9]+))?$` against `s`, the groups to the left
already chosen. -/
def matchSub (sg idv el : Option Str) (s : Str) : Option RefMatch :=
  let absent : Option RefMatch :=
    if endOk s then some ⟨sg, idv, el, none⟩ else none
  match s with
  | '-' :: rest =>
      if rest.takeWhile digitC ≠ [] ∧ endOk (rest.dropWhile digitC) then
        some ⟨sg, idv, el, some (rest.takeWhile digitC)⟩
      else absent
  | _ => absent

/-- Match `(?P<ele_idx>[0-9]{2})?` and the rest of the pattern against `s`. -/
def matchEle (sg idv : Option Str) (s : Str) : Option RefMatch :=
  let present : Option RefMatch :=
    match s with
    | d1 :: d2 :: rest =>
        if digitC d1 && digitC d2 then matchSub sg idv (some [d1, d2]) rest else none
    | _ => none
  match present with
  | some m => some m
  | none => matchSub sg idv none s

/-- Match `(\[(?P<id_val>[A-Z0-9]+)\])?` and the rest of the pattern. -/
def matchId (sg : Option Str) (s : Str) : Option RefMatch :=
  let present : Option RefMatch :=
    match s with
    | '[' :: rest =>
        if rest.takeWhile upperDigitC ≠ [] then
          match rest.dropWhile upperDigitC with
          | ']' :: rest2 => matchEle sg (some (rest.takeWhile upperDigitC)) rest2
          | _ => none
        else none
    | _ => none
  match present with
  | some m => some m
  | none => matchEle sg none s

/-- Match `(?P<seg_id>[A-Z][A-Z0-9]{1,2})?` and the rest of the pattern:
greedy, so three characters are tried before two, and presence before
absence. -/
def matchSeg (s : Str) : Option RefMatch :=
  let alt3 : Option RefMatch :=
    match s with
    | c1 :: c2 :: c3 :: rest =>
        if upperC c1 && upperDigitC c2 && upperDigitC c3 then
          matchId (some [c1, c2, c3]) rest
        else none
    | _ => none
  match alt3 with
  | some m => some m
  | none =>
    let alt2 : Option RefMatch :=
      match s with
      | c1 :: c2 :: rest =>
          if upperC c1 && upperDigitC c2 then matchId (some [c1, c2]) rest else none
      | _ => none
    match alt2 with
    | some m => some m
    | none => matchId none s

/-- `RX_PATH.search(s)` (the pattern is anchored at both ends). -/
def matchRefdes (s : Str) : Option RefMatch := matchSeg s

/-! ### The `X12Path` class -/

/-- The state of an `X12Path` instance: the structured fields, the cached
string `_path_str`, the refdes substring `_seg_str` (`none` while the
attribute is unassigned), and the cache staleness flag `_dirty`. -/
structure X12Path where
  loop_list : List Str
  seg_id : Option Str
  id_val : Option Str
  ele_idx : Option Nat
  subele_idx : Option Nat
  relative : Bool
  path_str : Str
  seg_str : Option Str
  dirty : Bool
  deriving Repr, DecidableEq

/-- The tail of `X12Path.__init__` after the loop list `ts` has been split
off (with `relative` decided and the original string in `ps`). -/
def parseTail (relative : Bool) (ps : Str) (ts : List Str) : Option X12Path :=
  if ts = [] then
    some ⟨ts, none, none, none, none, relative, ps, none, false⟩
  else if lastD ts = [] then
    -- ended in a '/', so no segment
    some ⟨ts.dropLast, none, none, none, none, relative, ps.dropLast, none, false⟩
  else
    match matchRefdes (lastD ts) with
    | some m =>
        if m.seg_id = none ∧ m.id_val ≠ none then none
        else if m.seg_id = none ∧
            (m.ele_idx.map digitsToNat ≠ none ∨ m.subele_idx.map digitsToNat ≠ none) ∧
            ts.dropLast ≠ [] then none
        else
          some ⟨ts.dropLast, m.seg_id, m.id_val, m.ele_idx.map digitsToNat,
            m.subele_idx.map digitsToNat, relative, ps, some (lastD ts), false⟩
    | none =>
        some ⟨ts, none, none, none, none, relative, ps, none, false⟩

/-- `X12Path.__init__(path_str)`: `none` models a raised `X12PathError`. -/
def parse (path_str : Str) : Option X12Path :=
  match path_str with
  | [] => some ⟨[], none, none, none, none, true, path_str, none, false⟩
  | c :: rest =>
      if c = '/' then parseTail false (c :: rest) (splitSep rest)
      else parseTail true (c :: rest) (splitSep (c :: rest))

/-- An arbitrary placeholder instance (used only to read off the value of a
`parse` known to succeed). -/
def dfltPath : X12Path := ⟨[], none, none, none, none, true, [], none, false⟩

/-- The value of a successful `parse`. -/
def parseD (s : Str) : X12Path := (parse s).getD dfltPath

/-- Python truthiness of an optional string (`None` and `''` are falsy). -/
def truthyS : Option Str → Bool
  | none => false
  | some s => decide (s ≠ [])

/-- Python truthiness of an optional integer (`None` and `0` are falsy). -/
def truthyN : Option Nat → Bool
  | none => false
  | some n => decide (n ≠ 0)

/-- `X12Path.fm_refdes`: rebuild the ref-designator from the fields and
store it in `_seg_str`. -/
def X12Path.fm_refdes (p : X12Path) : Str × X12Path :=
  let r1 : Str :=
    if truthyS p.seg_id then
      p.seg_id.getD [] ++
        (if truthyS p.id_val then '[' :: p.id_val.getD [] ++ [']'] else [])
    else []
  let ret : Str :=
    r1 ++
      (if truthyN p.ele_idx then
        pad2 (p.ele_idx.getD 0) ++
          (if truthyN p.subele_idx then '-' :: natDigits (p.subele_idx.getD 0) else [])
      else [])
  (ret, { p with seg_str := some ret })

/-- `X12Path.fm_path`: rebuild the canonical string from the fields, store
it in `_path_str` and clear the dirty flag. -/
def X12Path.fm_path (p : X12Path) : Str × X12Path :=
  let ret0 : Str := (if p.relative then [] else ['/']) ++ joinSep p.loop_list
  let ret1 : Str :=
    if truthyS p.seg_id ∧ ret0 ≠ [] ∧ ret0 ≠ ['/'] then ret0 ++ ['/'] else ret0
  let rp := p.fm_refdes
  let ret : Str := ret1 ++ rp.1
  (ret, { rp.2 with path_str := ret, dirty := false })

/-- `X12Path.format`: return the cached string, recomputing it first when
the cache is stale. -/
def X12Path.format (p : X12Path) : Str × X12Path :=
  if p.dirty then p.fm_path else (p.path_str, p)

/-- The string whose Python hash `X12Path.__hash__` returns:
`__hash__` is `self.__repr__().__hash__()` and `__repr__` is `format()`,
so the hash is the string hash of the (possibly cached) formatted string.
Python's string hash is a fixed function of the string within a process,
so two instances hash equal exactly when their keys collide — and unequal
keys of these short forms do not collide. -/
def X12Path.hashKey (p : X12Path) : Str := p.format.1

/-- `X12Path.__eq__`: structural comparison of the six fields (the cache
state is not compared). -/
def X12Path.beq (p q : X12Path) : Bool :=
  decide (p.loop_list = q.loop_list ∧ p.seg_id = q.seg_id ∧ p.id_val = q.id_val ∧
    p.ele_idx = q.ele_idx ∧ p.subele_idx = q.subele_idx ∧ p.relative = q.relative)

/-- `X12Path.empty`. -/
def X12Path.empty (p : X12Path) : Bool :=
  decide (p.relative = true ∧ p.loop_list = [] ∧ p.seg_id = none ∧ p.ele_idx = none)

/-- The `loop_list` property setter. -/
def X12Path.set_loop_list (p : X12Path) (v : List Str) : X12Path :=
  { p with dirty := true, loop_list := v }

/-- The `seg_id` property setter. -/
def X12Path.set_seg_id (p : X12Path) (v : Option Str) : X12Path :=
  { p with dirty := true, seg_id := v }

/-- The `id_val` property setter. -/
def X12Path.set_id_val (p : X12Path) (v : Option Str) : X12Path :=
  { p with dirty := true, id_val := v }

/-- The `ele_idx` property setter. -/
def X12Path.set_ele_idx (p : X12Path) (v : Option Nat) : X12Path :=
  { p with dirty := true, ele_idx := v }

/-- The `subele_idx` property setter. -/
def X12Path.set_subele_idx (p : X12Path) (v : Option Nat) : X12Path :=
  { p with dirty := true, subele_idx := v }

/-- The `relative` property setter. -/
def X12Path.set_relative (p : X12Path) (v : Bool) : X12Path :=
  { p with dirty := true, relative := v }

/-- `X12Path.append(loop)`. -/
def X12Path.append (p : X12Path) (loop : Str) : X12Path :=
  { p with loop_list := p.loop_list ++ splitSep loop, dirty := true }

/-- Python `s.replace(pat, '')` for a non-empty `pat`: delete every
non-overlapping occurrence, scanning left to right.  The fuel argument is
the length of `s`; each step consumes at least one character. -/
def removeAllFuel (pat : Str) : Nat → Str → Str
  | _, [] => []
  | 0, s => s
  | fuel + 1, c :: rest =>
      if pat.isPrefixOf (c :: rest) then
        removeAllFuel pat fuel ((c :: rest).drop pat.length)
      else c :: removeAllFuel pat fuel rest

/-- Python `s.replace(pat, '')`. -/
def pyReplaceDel (s pat : Str) : Str := removeAllFuel pat s.length s

/-- `X12Path.pop_loop`: `none` models the unhandled `UnboundLocalError`
raised when the loop list is empty (the local `loop` is only assigned
inside the `if`).  The dirty flag is left untouched; the cached string is
edited textually instead. -/
def X12Path.pop_loop (p : X12Path) : Option (Str × X12Path) :=
  match p.loop_list with
  | [] => none
  | l :: rest =>
      some (l, { p with loop_list := rest, path_str := pyReplaceDel p.path_str (l ++ ['/']) })

/-- `X12Path.format_refdes`: a `none` first component models the unhandled
`AttributeError` on reading the never assigned `_seg_str` attribute. -/
def X12Path.format_refdes (p : X12Path) : Option Str × X12Path :=
  if p.dirty then (p.fm_path.2.seg_str, p.fm_path.2) else (p.seg_str, p)

/-- `X12Path.is_child_path(child_path)`:
`len(child_path) > len(root_path) and child_path.find(root_path) == 0`,
where `find(root) == 0` holds exactly when `root` is a prefix. -/
def X12Path.is_child_path (p : X12Path) (child : Str) : Bool :=
  let root := p.format.1
  decide (root.length < child.length) && root.isPrefixOf child

/-- The separator-delimited tokens of an input string, after stripping a
leading separator, exactly as `__init__` computes them. -/
def tokensOf (s : Str) : List Str :=
  match s with
  | '/' :: rest => splitSep rest
  | _ => splitSep s

/-- The trailing token of an input string. -/
def lastTok (s : Str) : Str := lastD (tokensOf s)

/-- The error condition of `__init__`, phrased on the trailing token as the
specification does: the token matches the grammar and carries a qualifier
without a segment identifier, or carries an element or sub-element index
without a segment identifier while the remaining loop list is non-empty. -/
def raisesCond (s : Str) : Prop :=
  ∃ m, matchRefdes (lastTok s) = some m ∧ m.seg_id = none ∧
    (m.id_val ≠ none ∨
      ((m.ele_idx ≠ none ∨ m.subele_idx ≠ none) ∧ (tokensOf s).dropLast ≠ []))

instance (s : Str) : Decidable (raisesCond s) :=
  match hm : matchRefdes (lastTok s) with
  | some m =>
      decidable_of_iff (m.seg_id = none ∧
        (m.id_val ≠ none ∨
          ((m.ele_idx ≠ none ∨ m.subele_idx ≠ none) ∧ (tokensOf s).dropLast ≠ [])))
        (by
          constructor
          · intro h
            exact ⟨m, hm, h.1, h.2⟩
          · rintro ⟨m', hm', h1, h2⟩
            rw [hm] at hm'
            injection hm' with hm'
            subst hm'
            exact ⟨h1, h2⟩)
  | none =>
      .isFalse (by
        rintro ⟨m, hm', _⟩
        rw [hm] at hm'
        exact absurd hm' (by simp))

/-- The shape of a `seg_id` captured by `RX_PATH`: one uppercase letter
followed by one or two characters in `[A-Z0-9]`. -/
def segShape (sg : Str) : Prop :=
  (∃ c1 c2, sg = [c1, c2] ∧ upperC c1 = true ∧ upperDigitC c2 = true) ∨
  (∃ c1 c2 c3, sg = [c1, c2, c3] ∧ upperC c1 = true ∧ upperDigitC c2 = true ∧
    upperDigitC c3 = true)

/-- The serialized bracketed qualifier. -/
def idPartS : Option Str → Str
  | none => []
  | some i => '[' :: i ++ [']']

/-- The serialized dash-prefixed sub-element index. -/
def subPartS : Option Nat → Str
  | none => []
  | some u => '-' :: natDigits u

/-- The serialized element index together with the sub-element index (the
latter only ever follows the former). -/
def elePartS : Option Nat → Option Nat → Str
  | none, _ => []
  | some e, sub => pad2 e ++ subPartS sub

/-- The serialization recipe exactly as the specification words it: leading
separator when not relative, loops joined by the separator, a separator
when `segment_id` is set and the joined loop string is non-empty, then
`segment_id`, the bracketed qualifier if set, the element index zero padded
to two digits whenever it is set (including the value 0), and `'-'` plus
the sub-element index whenever it is set. -/
def specFmPath (p : X12Path) : Str :=
  (if p.relative then [] else ['/']) ++ joinSep p.loop_list ++
    (if p.seg_id ≠ none ∧ joinSep p.loop_list ≠ [] then ['/'] else []) ++
    (match p.seg_id with | some sg => sg | none => []) ++
    (match p.id_val with | some q => '[' :: q ++ [']'] | none => []) ++
    (match p.ele_idx with | some e => pad2 e | none => []) ++
    (match p.subele_idx with | some u => '-' :: natDigits u | none => [])

/-- The serialization recipe as the code actually implements it: the
separator before the ref-designator appears when `segment_id` is set and
non-empty and the serialized prefix is neither empty nor a lone separator;
the segment id and qualifier appear when set and non-empty; the element
index appears when set and non-zero; the sub-element index appears when
the element index appeared and it is itself set and non-zero. -/
def fmPathAmended (p : X12Path) : Str :=
  ((if p.relative then [] else ['/']) ++ joinSep p.loop_list) ++
    (if truthyS p.seg_id ∧
        ((if p.relative then [] else ['/']) ++ joinSep p.loop_list) ≠ [] ∧
        ((if p.relative then [] else ['/']) ++ joinSep p.loop_list) ≠ ['/']
      then ['/'] else []) ++
    (if truthyS p.seg_id then
      p.seg_id.getD [] ++ (if truthyS p.id_val then '[' :: p.id_val.getD [] ++ [']'] else [])
    else []) ++
    (if truthyN p.ele_idx then
      pad2 (p.ele_idx.getD 0) ++
        (if truthyN p.subele_idx then '-' :: natDigits (p.subele_idx.getD 0) else [])
    else [])

/-- The record invariants a successful `parse` guarantees for an input that
is non-degenerate (does not end with the separator and contains no newline).
These are exactly the facts the round-trip argument consumes. -/
structure ParsedShape (a : X12Path) : Prop where
  noSlash : ∀ t ∈ a.loop_list, ∀ c ∈ t, c ≠ '/'
  relHead : a.relative = true → a.loop_list ≠ [] → a.loop_list.headD [] ≠ []
  segOk : a.seg_id = none ∨ ∃ sg, a.seg_id = some sg ∧ segShape sg
  idOk : a.id_val = none ∨ ∃ i, a.id_val = some i ∧ i ≠ [] ∧ ∀ c ∈ i, upperDigitC c = true
  idSeg : a.seg_id = none → a.id_val = none
  eleLe : ∀ e, a.ele_idx = some e → e ≤ 99
  eleSeg : a.seg_id = none → (a.ele_idx ≠ none ∨ a.subele_idx ≠ none) → a.loop_list = []
  lastNoMatch : a.seg_id = none → a.id_val = none → a.ele_idx = none → a.subele_idx = none →
    a.loop_list ≠ [] → matchRefdes (lastD a.loop_list) = none


/-! ## Character and digit lemmas -/

theorem charNe {c d : Char} (h : c.toNat ≠ d.toNat) : c ≠ d :=
  fun he => h (he ▸ rfl)

theorem upperC_range {c : Char} (h : upperC c = true) : 65 ≤ c.toNat ∧ c.toNat ≤ 90 := by
  simpa [upperC] using h

theorem digitC_range {c : Char} (h : digitC c = true) : 48 ≤ c.toNat ∧ c.toNat ≤ 57 := by
  simpa [digitC] using h

theorem upperDigitC_range {c : Char} (h : upperDigitC c = true) :
    (65 ≤ c.toNat ∧ c.toNat ≤ 90) ∨ (48 ≤ c.toNat ∧ c.toNat ≤ 57) := by
  rcases Bool.or_eq_true_iff.mp h with h' | h'
  · exact Or.inl (upperC_range h')
  · exact Or.inr (digitC_range h')

theorem upperDigitC_notSpecial {c : Char} (h : upperDigitC c = true) :
    c ≠ '/' ∧ c ≠ '\n' ∧ c ≠ '[' ∧ c ≠ ']' ∧ c ≠ '-' := by
  have hr := upperDigitC_range h
  have e1 : ('/').toNat = 47 := by decide
  have e2 : ('\n').toNat = 10 := by decide
  have e3 : ('[').toNat = 91 := by decide
  have e4 : (']').toNat = 93 := by decide
  have e5 : ('-').toNat = 45 := by decide
  exact ⟨charNe (by omega), charNe (by omega), charNe (by omega),
    charNe (by omega), charNe (by omega)⟩

theorem digitC_notSpecial {c : Char} (h : digitC c = true) :
    c ≠ '/' ∧ c ≠ '\n' ∧ c ≠ '[' ∧ c ≠ ']' ∧ c ≠ '-' :=
  upperDigitC_notSpecial (by simp [upperDigitC, h])

theorem upperC_upperDigitC {c : Char} (h : upperC c = true) : upperDigitC c = true := by
  simp [upperDigitC, h]

theorem digitC_upperDigitC {c : Char} (h : digitC c = true) : upperDigitC c = true := by
  simp [upperDigitC, h]

theorem digitC_not_upperC {c : Char} (h : digitC c = true) : upperC c = false := by
  cases h' : upperC c
  · rfl
  · have := digitC_range h
    have := upperC_range h'
    omega

theorem digitVal_digitChar {n : Nat} (h : n < 10) : digitVal (digitChar n) = n := by
  interval_cases n <;> decide

theorem digitC_digitChar {n : Nat} (h : n < 10) : digitC (digitChar n) = true := by
  interval_cases n <;> decide

theorem digitsToNat_append (ds : Str) (c : Char) :
    digitsToNat (ds ++ [c]) = digitsToNat ds * 10 + digitVal c := by
  simp [digitsToNat, List.foldl_append]

theorem natDigits_spec (n : Nat) :
    digitsToNat (natDigits n) = n ∧ natDigits n ≠ [] ∧
      ∀ c ∈ natDigits n, digitC c = true := by
  induction n using Nat.strong_induction_on with
  | _ n ih =>
    rw [natDigits]
    split
    · next h =>
      refine ⟨?_, by simp, ?_⟩
      · simp [digitsToNat, digitVal_digitChar h]
      · intro c hc
        simp at hc
        subst hc
        exact digitC_digitChar h
    · next h =>
      have hlt : n / 10 < n := Nat.div_lt_self (by omega) (by omega)
      obtain ⟨hv, hne, hd⟩ := ih (n / 10) hlt
      refine ⟨?_, by simp, ?_⟩
      · rw [digitsToNat_append, hv, digitVal_digitChar (Nat.mod_lt _ (by omega))]
        omega
      · intro c hc
        rcases List.mem_append.mp hc with hc | hc
        · exact hd c hc
        · simp at hc
          subst hc
          exact digitC_digitChar (Nat.mod_lt _ (by omega))

theorem digitsToNat_cons_zero (ds : Str) : digitsToNat ('0' :: ds) = digitsToNat ds := by
  have h : digitVal '0' = 0 := by decide
  simp [digitsToNat, List.foldl_cons, h]

theorem digitsToNat_pad2 (n : Nat) : digitsToNat (pad2 n) = n := by
  unfold pad2
  split
  · rw [digitsToNat_cons_zero]
    exact (natDigits_spec n).1
  · exact (natDigits_spec n).1

theorem pad2_shape {n : Nat} (h : n ≤ 99) :
    ∃ d1 d2, pad2 n = [d1, d2] ∧ digitC d1 = true ∧ digitC d2 = true := by
  unfold pad2
  split
  · next hlt =>
    exact ⟨'0', digitChar n, by rw [natDigits, dif_pos hlt], by decide, digitC_digitChar hlt⟩
  · next hge =>
    have h1 : ¬ n < 10 := hge
    have h2 : n / 10 < 10 := by omega
    refine ⟨digitChar (n / 10), digitChar (n % 10), ?_, digitC_digitChar h2,
      digitC_digitChar (Nat.mod_lt _ (by omega))⟩
    rw [natDigits, dif_neg h1, natDigits, dif_pos h2]
    rfl

theorem two_digit_le {d1 d2 : Char} (h1 : digitC d1 = true) (h2 : digitC d2 = true) :
    digitsToNat [d1, d2] ≤ 99 := by
  have := digitC_range h1
  have := digitC_range h2
  simp [digitsToNat, List.foldl_cons, digitVal]
  omega

/-! ## Splitting and joining lemmas -/

theorem splitSep_ne_nil (s : Str) : splitSep s ≠ [] := by
  cases s with
  | nil => simp [splitSep]
  | cons c rest =>
      simp only [splitSep]
      split
      · simp
      · cases h : splitSep rest <;> simp [consHead]

theorem splitSep_no_slash (s : Str) : ∀ t ∈ splitSep s, ∀ c ∈ t, c ≠ '/' := by
  induction s with
  | nil =>
      intro t ht c hc
      simp [splitSep] at ht
      subst ht
      simp at hc
  | cons c0 rest ih =>
      intro t ht c hc
      simp only [splitSep] at ht
      split at ht
      · rcases List.mem_cons.mp ht with rfl | ht
        · simp at hc
        · exact ih t ht c hc
      · next hc0 =>
        rcases h : splitSep rest with _ | ⟨t0, ts⟩
        · exact absurd h (splitSep_ne_nil rest)
        · rw [h] at ht
          simp only [consHead] at ht
          rcases List.mem_cons.mp ht with rfl | ht
          · rcases List.mem_cons.mp hc with rfl | hc
            · exact hc0
            · exact ih t0 (h ▸ List.mem_cons_self t0 ts) c hc
          · exact ih t (h ▸ List.mem_cons_of_mem t0 ht) c hc

theorem splitSep_chars (s : Str) : ∀ t ∈ splitSep s, ∀ c ∈ t, c ∈ s := by
  induction s with
  | nil =>
      intro t ht c hc
      simp [splitSep] at ht
      subst ht
      simp at hc
  | cons c0 rest ih =>
      intro t ht c hc
      simp only [splitSep] at ht
      split at ht
      · rcases List.mem_cons.mp ht with rfl | ht
        · simp at hc
        · exact List.mem_cons_of_mem _ (ih t ht c hc)
      · rcases h : splitSep rest with _ | ⟨t0, ts⟩
        · exact absurd h (splitSep_ne_nil rest)
        · rw [h] at ht
          simp only [consHead] at ht
          rcases List.mem_cons.mp ht with rfl | ht
          · rcases List.mem_cons.mp hc with rfl | hc
            · exact List.mem_cons_self _ _
            · exact List.mem_cons_of_mem _ (ih t0 (h ▸ List.mem_cons_self t0 ts) c hc)
          · exact List.mem_cons_of_mem _ (ih t (h ▸ List.mem_cons_of_mem t0 ht) c hc)

theorem splitSep_eq_nilToken {s : Str} (h : splitSep s = [[]]) : s = [] := by
  cases s with
  | nil => rfl
  | cons c rest =>
      simp only [splitSep] at h
      split at h
      · have : splitSep rest = [] := by
          injection h with _ h2
        exact absurd this (splitSep_ne_nil rest)
      · rcases h' : splitSep rest with _ | ⟨t0, ts⟩
        · exact absurd h' (splitSep_ne_nil rest)
        · rw [h'] at h
          simp [consHead] at h

theorem splitSep_single {t : Str} (h : ∀ c ∈ t, c ≠ '/') : splitSep t = [t] := by
  induction t with
  | nil => simp [splitSep]
  | cons c rest ih =>
      have hc : c ≠ '/' := h c (List.mem_cons_self _ _)
      simp only [splitSep, if_neg hc]
      rw [ih fun c hc => h c (List.mem_cons_of_mem _ hc)]
      simp [consHead]

theorem splitSep_append_slash {t r : Str} (h : ∀ c ∈ t, c ≠ '/') :
    splitSep (t ++ '/' :: r) = t :: splitSep r := by
  induction t with
  | nil => simp [splitSep]
  | cons c rest ih =>
      have hc : c ≠ '/' := h c (List.mem_cons_self _ _)
      simp only [List.cons_append, splitSep, if_neg hc, List.append_eq]
      rw [ih fun c hc => h c (List.mem_cons_of_mem _ hc)]
      simp [consHead]

theorem splitSep_joinSep {ts : List Str} (hne : ts ≠ [])
    (h : ∀ t ∈ ts, ∀ c ∈ t, c ≠ '/') : splitSep (joinSep ts) = ts := by
  induction ts with
  | nil => exact absurd rfl hne
  | cons t ts ih =>
      cases ts with
      | nil => exact splitSep_single fun c hc => h t (List.mem_cons_self _ _) c hc
      | cons t2 ts2 =>
          show splitSep (t ++ '/' :: joinSep (t2 :: ts2)) = _
          rw [splitSep_append_slash fun c hc => h t (List.mem_cons_self _ _) c hc]
          rw [ih (by simp) fun t' ht' c hc => h t' (List.mem_cons_of_mem _ ht') c hc]

theorem joinSep_concat {ts : List Str} (hne : ts ≠ []) (t : Str) :
    joinSep (ts ++ [t]) = joinSep ts ++ '/' :: t := by
  induction ts with
  | nil => exact absurd rfl hne
  | cons t0 ts ih =>
      cases ts with
      | nil => simp [joinSep]
      | cons t1 ts1 =>
          show joinSep (t0 :: ((t1 :: ts1) ++ [t])) = _
          have : joinSep (t0 :: ((t1 :: ts1) ++ [t])) =
              t0 ++ '/' :: joinSep ((t1 :: ts1) ++ [t]) := by
            cases ts1 <;> rfl
          rw [this, ih (by simp)]
          simp [joinSep]

theorem joinSep_eq_nil {ts : List Str} (h : joinSep ts = []) : ts = [] ∨ ts = [[]] := by
  cases ts with
  | nil => exact Or.inl rfl
  | cons t ts =>
      cases ts with
      | nil =>
          simp [joinSep] at h
          simp [h]
      | cons t2 ts2 => simp [joinSep] at h

theorem joinSep_eq_slash {ts : List Str}
    (hns : ∀ t ∈ ts, ∀ c ∈ t, c ≠ '/') (h : joinSep ts = ['/']) : ts = [[], []] := by
  cases ts with
  | nil => simp [joinSep] at h
  | cons t ts =>
      cases ts with
      | nil =>
          simp only [joinSep] at h
          exact absurd rfl (hns t (by simp [h]) '/' (by simp [h]))
      | cons t2 ts2 =>
          have h' : t ++ '/' :: joinSep (t2 :: ts2) = ['/'] := h
          have ht : t = [] := by
            cases t with
            | nil => rfl
            | cons c rest => simp at h'
          subst ht
          simp at h'
          rcases joinSep_eq_nil h' with h2 | h2
          · simp at h2
          · rw [h2]

theorem joinSep_cons_ne_nil {t : Str} {ts : List Str} (h : t ≠ []) :
    joinSep (t :: ts) ≠ [] := by
  cases ts with
  | nil => simpa [joinSep] using h
  | cons t2 ts2 =>
      show t ++ '/' :: joinSep (t2 :: ts2) ≠ []
      simp

theorem joinSep_cons_head {c : Char} {t : Str} {ts : List Str} :
    ∃ r, joinSep ((c :: t) :: ts) = c :: r := by
  cases ts with
  | nil => exact ⟨t, rfl⟩
  | cons t2 ts2 => exact ⟨t ++ '/' :: joinSep (t2 :: ts2), rfl⟩

/-! ## `lastD` and `dropLast` lemmas -/

theorem lastD_concat (ts : List Str) (t : Str) : lastD (ts ++ [t]) = t := by
  induction ts with
  | nil => rfl
  | cons t0 ts ih =>
      cases ts with
      | nil => rfl
      | cons t1 ts1 => exact ih

theorem lastD_mem {ts : List Str} (h : ts ≠ []) : lastD ts ∈ ts := by
  induction ts with
  | nil => exact absurd rfl h
  | cons t0 ts ih =>
      cases ts with
      | nil => simp [lastD]
      | cons t1 ts1 => exact List.mem_cons_of_mem _ (ih (by simp))

theorem lastD_cons_cons (t0 t1 : Str) (ts : List Str) :
    lastD (t0 :: t1 :: ts) = lastD (t1 :: ts) := rfl

theorem mem_dropLast {ts : List Str} {t : Str} (h : t ∈ ts.dropLast) : t ∈ ts :=
  List.dropLast_subset ts h

theorem headD_dropLast {ts : List Str} (h : ts.dropLast ≠ []) :
    ts.dropLast.headD [] = ts.headD [] := by
  cases ts with
  | nil => simp at h
  | cons t0 ts =>
      cases ts with
      | nil => simp at h
      | cons t1 ts1 => simp

theorem headD_append {ts : List Str} (h : ts ≠ []) (l : List Str) :
    (ts ++ l).headD [] = ts.headD [] := by
  cases ts with
  | nil => exact absurd rfl h
  | cons t0 ts => simp


theorem splitSep_cons_slash (rest : Str) : splitSep ('/' :: rest) = [] :: splitSep rest := by
  simp [splitSep]

theorem splitSep_cons_ns {c : Char} (h : c ≠ '/') (rest : Str) :
    splitSep (c :: rest) = consHead c (splitSep rest) := by
  simp [splitSep, h]

theorem lastD_splitSep_ne {s : Str} (h0 : s ≠ []) (hL : s.getLast? ≠ some '/') :
    lastD (splitSep s) ≠ [] := by
  induction s with
  | nil => exact absurd rfl h0
  | cons c rest ih =>
      cases rest with
      | nil =>
          have hc : c ≠ '/' := by
            intro hc
            exact hL (by simp [hc])
          simp [splitSep_cons_ns hc, splitSep, consHead, lastD, hc]
      | cons c1 rest1 =>
          have hL' : (c1 :: rest1).getLast? ≠ some '/' := by
            rwa [List.getLast?_cons_cons] at hL
          have ih' := ih (by simp) hL'
          rcases hr : splitSep (c1 :: rest1) with _ | ⟨t0, ts⟩
          · exact absurd hr (splitSep_ne_nil _)
          · rw [hr] at ih'
            by_cases hc : c = '/'
            · subst hc
              rw [splitSep_cons_slash, hr, lastD_cons_cons]
              exact ih'
            · rw [splitSep_cons_ns hc, hr]
              simp only [consHead]
              cases ts with
              | nil => simp [lastD]
              | cons t1 ts1 =>
                  rw [lastD_cons_cons]
                  rwa [lastD_cons_cons] at ih'

theorem lastD_splitSep_ends_slash {s : Str} (hL : s.getLast? = some '/') :
    lastD (splitSep s) = [] := by
  induction s with
  | nil => simp at hL
  | cons c rest ih =>
      cases rest with
      | nil =>
          have hc : c = '/' := by simpa using hL
          subst hc
          simp [splitSep_cons_slash, splitSep, lastD]
      | cons c1 rest1 =>
          have hL' : (c1 :: rest1).getLast? = some '/' := by
            rwa [List.getLast?_cons_cons] at hL
          have ih' := ih hL'
          rcases hr : splitSep (c1 :: rest1) with _ | ⟨t0, ts⟩
          · exact absurd hr (splitSep_ne_nil _)
          · rw [hr] at ih'
            by_cases hc : c = '/'
            · subst hc
              rw [splitSep_cons_slash, hr, lastD_cons_cons]
              exact ih'
            · rw [splitSep_cons_ns hc, hr]
              simp only [consHead]
              cases ts with
              | nil =>
                  simp only [lastD] at ih'
                  have : splitSep (c1 :: rest1) = [[]] := by rw [hr, ih']
                  have := splitSep_eq_nilToken this
                  simp at this
              | cons t1 ts1 =>
                  rw [lastD_cons_cons]
                  rwa [lastD_cons_cons] at ih'

theorem splitSep_headD_ne {s : Str} (h0 : s ≠ []) (hh : s.head? ≠ some '/') :
    (splitSep s).headD [] ≠ [] := by
  cases s with
  | nil => exact absurd rfl h0
  | cons c rest =>
      have hc : c ≠ '/' := by
        intro hc
        exact hh (by simp [hc])
      rw [splitSep_cons_ns hc]
      cases h : splitSep rest <;> simp [consHead]

/-! ## `takeWhile` and `dropWhile` lemmas -/

theorem takeWhile_all {p : Char → Bool} :
    ∀ {l : Str}, (∀ c ∈ l, p c = true) → l.takeWhile p = l ∧ l.dropWhile p = [] := by
  intro l h
  induction l with
  | nil => simp
  | cons c rest ih =>
      have hc : p c = true := h c (List.mem_cons_self _ _)
      have := ih fun c hc' => h c (List.mem_cons_of_mem _ hc')
      simp [List.takeWhile_cons, List.dropWhile_cons, hc, this.1, this.2]

theorem takeWhile_append_stop {p : Char → Bool} {i : Str} {x : Char} {r : Str}
    (hall : ∀ c ∈ i, p c = true) (hx : p x = false) :
    (i ++ x :: r).takeWhile p = i ∧ (i ++ x :: r).dropWhile p = x :: r := by
  induction i with
  | nil => simp [List.takeWhile_cons, List.dropWhile_cons, hx]
  | cons c rest ih =>
      have hc : p c = true := hall c (List.mem_cons_self _ _)
      have := ih fun c hc' => hall c (List.mem_cons_of_mem _ hc')
      simp [List.takeWhile_cons, List.dropWhile_cons, hc, this.1, this.2]

theorem takeWhile_mem {p : Char → Bool} :
    ∀ {l : Str}, ∀ c ∈ l.takeWhile p, p c = true := by
  intro l
  induction l with
  | nil => simp
  | cons c0 rest ih =>
      intro c hc
      rw [List.takeWhile_cons] at hc
      by_cases h0 : p c0
      · rw [if_pos h0] at hc
        rcases List.mem_cons.mp hc with rfl | hc
        · exact h0
        · exact ih c hc
      · rw [if_neg h0] at hc
        simp at hc

/-! ## Shape of the groups captured by a successful match -/

theorem endOk_cases {s : Str} (h : endOk s = true) : s = [] ∨ s = ['\n'] := by
  simpa [endOk] using h

theorem matchSub_spec {sg idv el : Option Str} {s : Str} {m : RefMatch}
    (h : matchSub sg idv el s = some m) :
    m.seg_id = sg ∧ m.id_val = idv ∧ m.ele_idx = el ∧
      ((m.subele_idx = none ∧ endOk s = true) ∨
        ∃ ds, m.subele_idx = some ds ∧ ds ≠ [] ∧ ∀ c ∈ ds, digitC c = true) := by
  simp only [matchSub] at h
  split at h
  · next rest =>
      split at h
      · next hcond =>
          injection h with h'
          subst h'
          exact ⟨rfl, rfl, rfl, Or.inr ⟨_, rfl, hcond.1, fun c hc => takeWhile_mem c hc⟩⟩
      · split at h
        · next hend =>
            injection h with h'
            subst h'
            exact ⟨rfl, rfl, rfl, Or.inl ⟨rfl, hend⟩⟩
        · exact absurd h (by simp)
  · split at h
    · next hend =>
        injection h with h'
        subst h'
        exact ⟨rfl, rfl, rfl, Or.inl ⟨rfl, hend⟩⟩
    · exact absurd h (by simp)

theorem matchEle_spec {sg idv : Option Str} {s : Str} {m : RefMatch}
    (h : matchEle sg idv s = some m) :
    m.seg_id = sg ∧ m.id_val = idv ∧
      (m.ele_idx = none ∨
        ∃ d1 d2, m.ele_idx = some [d1, d2] ∧ digitC d1 = true ∧ digitC d2 = true) ∧
      (m.subele_idx = none ∨ ∃ ds, m.subele_idx = some ds ∧ ds ≠ [] ∧
        ∀ c ∈ ds, digitC c = true) ∧
      (m.ele_idx = none ∧ m.subele_idx = none → endOk s = true) := by
  simp only [matchEle] at h
  split at h
  · next m0 heq =>
      injection h with h'
      subst h'
      split at heq
      · next d1 d2 rest =>
          split at heq
          · next hdig =>
              obtain ⟨h1, h2, h3, h4⟩ := matchSub_spec heq
              rw [Bool.and_eq_true] at hdig
              refine ⟨h1, h2, Or.inr ⟨d1, d2, h3, hdig.1, hdig.2⟩, ?_, ?_⟩
              · rcases h4 with ⟨h4, _⟩ | h4
                · exact Or.inl h4
                · exact Or.inr h4
              · intro ⟨he, _⟩
                rw [h3] at he
                exact absurd he (by simp)
          · exact absurd heq (by simp)
      · exact absurd heq (by simp)
  · obtain ⟨h1, h2, h3, h4⟩ := matchSub_spec h
    refine ⟨h1, h2, Or.inl h3, ?_, ?_⟩
    · rcases h4 with ⟨h4, _⟩ | h4
      · exact Or.inl h4
      · exact Or.inr h4
    · intro ⟨_, hs⟩
      rcases h4 with ⟨_, hend⟩ | ⟨ds, hds, _, _⟩
      · exact hend
      · rw [hds] at hs
        exact absurd hs (by simp)

theorem matchId_spec {sg : Option Str} {s : Str} {m : RefMatch}
    (h : matchId sg s = some m) :
    m.seg_id = sg ∧
      (m.id_val = none ∨ ∃ i, m.id_val = some i ∧ i ≠ [] ∧
        ∀ c ∈ i, upperDigitC c = true) ∧
      (m.ele_idx = none ∨
        ∃ d1 d2, m.ele_idx = some [d1, d2] ∧ digitC d1 = true ∧ digitC d2 = true) ∧
      (m.subele_idx = none ∨ ∃ ds, m.subele_idx = some ds ∧ ds ≠ [] ∧
        ∀ c ∈ ds, digitC c = true) ∧
      (m.id_val = none ∧ m.ele_idx = none ∧ m.subele_idx = none → endOk s = true) := by
  simp only [matchId] at h
  split at h
  · next m0 heq =>
      injection h with h'
      subst h'
      split at heq
      · next rest =>
          split at heq
          · next hrun =>
              split at heq
              · next rest2 hdrop =>
                  obtain ⟨h1, h2, h3, h4, _⟩ := matchEle_spec heq
                  refine ⟨h1, Or.inr ⟨_, h2, hrun, fun c hc => takeWhile_mem c hc⟩,
                    h3, h4, ?_⟩
                  intro ⟨hi, _⟩
                  rw [h2] at hi
                  exact absurd hi (by simp)
              · exact absurd heq (by simp)
          · exact absurd heq (by simp)
      · exact absurd heq (by simp)
  · obtain ⟨h1, h2, h3, h4, h5⟩ := matchEle_spec h
    exact ⟨h1, Or.inl h2, h3, h4, fun ⟨_, he, hs⟩ => h5 ⟨he, hs⟩⟩

theorem matchRefdes_spec {s : Str} {m : RefMatch} (h : matchRefdes s = some m) :
    (m.seg_id = none ∨ ∃ sg, m.seg_id = some sg ∧ segShape sg) ∧
      (m.id_val = none ∨ ∃ i, m.id_val = some i ∧ i ≠ [] ∧
        ∀ c ∈ i, upperDigitC c = true) ∧
      (m.ele_idx = none ∨
        ∃ d1 d2, m.ele_idx = some [d1, d2] ∧ digitC d1 = true ∧ digitC d2 = true) ∧
      (m.subele_idx = none ∨ ∃ ds, m.subele_idx = some ds ∧ ds ≠ [] ∧
        ∀ c ∈ ds, digitC c = true) ∧
      (m.seg_id = none ∧ m.id_val = none ∧ m.ele_idx = none ∧ m.subele_idx = none →
        endOk s = true) := by
  simp only [matchRefdes, matchSeg] at h
  split at h
  · next m0 heq =>
      injection h with h'
      subst h'
      split at heq
      · next c1 c2 c3 rest =>
          split at heq
          · next hcl =>
              simp only [Bool.and_eq_true] at hcl
              obtain ⟨h1, h2, h3, h4, _⟩ := matchId_spec heq
              refine ⟨Or.inr ⟨[c1, c2, c3], h1,
                Or.inr ⟨c1, c2, c3, rfl, hcl.1.1, hcl.1.2, hcl.2⟩⟩, h2, h3, h4, ?_⟩
              intro ⟨hseg, _⟩
              rw [h1] at hseg
              exact absurd hseg (by simp)
          · exact absurd heq (by simp)
      · exact absurd heq (by simp)
  · split at h
    · next m0 heq =>
        injection h with h'
        subst h'
        split at heq
        · next c1 c2 rest hprev =>
            split at heq
            · next hcl =>
                simp only [Bool.and_eq_true] at hcl
                obtain ⟨h1, h2, h3, h4, _⟩ := matchId_spec heq
                refine ⟨Or.inr ⟨[c1, c2], h1, Or.inl ⟨c1, c2, rfl, hcl.1, hcl.2⟩⟩,
                  h2, h3, h4, ?_⟩
                intro ⟨hseg, _⟩
                rw [h1] at hseg
                exact absurd hseg (by simp)
            · exact absurd heq (by simp)
        · exact absurd heq (by simp)
    · obtain ⟨h1, h2, h3, h4, h5⟩ := matchId_spec h
      exact ⟨Or.inl h1, h2, h3, h4, fun ⟨_, hi, he, hs⟩ => h5 ⟨hi, he, hs⟩⟩

/-! ## Re-matching a serialized ref-designator -/

theorem matchSub_rebuilt (sg idv el : Option Str) (sub : Option Nat) :
    matchSub sg idv el (subPartS sub) = some ⟨sg, idv, el, sub.map natDigits⟩ := by
  cases sub with
  | none => simp [subPartS, matchSub, endOk]
  | some u =>
      obtain ⟨_, hne, hd⟩ := natDigits_spec u
      obtain ⟨ht, hdrop⟩ := takeWhile_all hd
      simp [subPartS, matchSub, ht, hdrop, hne, endOk]

theorem matchEle_rebuilt (sg idv : Option Str) (ele sub : Option Nat)
    (hele : ∀ e, ele = some e → e ≤ 99) (hes : ele = none → sub = none) :
    matchEle sg idv (elePartS ele sub) = some ⟨sg, idv, ele.map pad2, sub.map natDigits⟩ := by
  cases ele with
  | none =>
      rw [hes rfl]
      simp [elePartS, matchEle, matchSub, endOk]
  | some e =>
      obtain ⟨d1, d2, hpad, hd1, hd2⟩ := pad2_shape (hele e rfl)
      simp only [elePartS, hpad, List.cons_append, List.nil_append]
      simp only [matchEle, hd1, hd2, Bool.and_self, if_pos]
      rw [matchSub_rebuilt]
      simp [hpad]

theorem matchId_rebuilt (sg : Option Str) (idv : Option Str) (ele sub : Option Nat)
    (hid : ∀ i, idv = some i → i ≠ [] ∧ ∀ c ∈ i, upperDigitC c = true)
    (hele : ∀ e, ele = some e → e ≤ 99) (hes : ele = none → sub = none) :
    matchId sg (idPartS idv ++ elePartS ele sub) =
      some ⟨sg, idv, ele.map pad2, sub.map natDigits⟩ := by
  cases idv with
  | some i =>
      obtain ⟨hne, hall⟩ := hid i rfl
      have hstop : upperDigitC ']' = false := by decide
      obtain ⟨ht, hdp⟩ := takeWhile_append_stop (r := elePartS ele sub) hall hstop
      have hme := matchEle_rebuilt sg (some i) ele sub hele hes
      simp only [idPartS, List.cons_append, List.append_assoc, List.nil_append]
      simp only [matchId, ht, hdp, hne, ne_eq, not_false_eq_true, if_true]
      rw [hme]
  | none =>
      cases ele with
      | none =>
          rw [hes rfl]
          simp [elePartS, matchId, matchEle, matchSub, endOk, idPartS]
      | some e =>
          obtain ⟨d1, d2, hpad, hd1, hd2⟩ := pad2_shape (hele e rfl)
          have hd1b : d1 ≠ '[' := (digitC_notSpecial hd1).2.2.1
          have hme := matchEle_rebuilt sg none (some e) sub hele (by simp)
          simp only [idPartS, List.nil_append] at hme ⊢
          simp only [elePartS, hpad, List.cons_append, List.nil_append] at hme ⊢
          simp only [matchId]
          split
          · next m heq =>
              split at heq
              · next rest hpat =>
                  injection hpat with hx hrest
                  exact absurd hx hd1b
              · exact absurd heq (by simp)
          · next heq =>
              rw [hme]

theorem matchId_fail_digit (sg : Option Str) {d2 : Char} (hd2 : digitC d2 = true)
    (sub : Option Nat) : matchId sg (d2 :: subPartS sub) = none := by
  have hfacts := digitC_notSpecial hd2
  have hd2b : d2 ≠ '[' := hfacts.2.2.1
  have hd2n : d2 ≠ '\n' := hfacts.2.1
  have hd2m : d2 ≠ '-' := hfacts.2.2.2.2
  cases sub with
  | none =>
      simp only [subPartS]
      simp [matchId, matchEle, matchSub, endOk, hd2b, hd2n, hd2m]
  | some u =>
      have hmd : digitC '-' = false := by decide
      simp only [subPartS]
      simp [matchId, matchEle, matchSub, endOk, hd2b, hd2n, hd2m, hmd]

theorem matchRefdes_rebuilt {sg : Str} (idv : Option Str) (ele sub : Option Nat)
    (hsg : segShape sg)
    (hid : ∀ i, idv = some i → i ≠ [] ∧ ∀ c ∈ i, upperDigitC c = true)
    (hele : ∀ e, ele = some e → e ≤ 99) (hes : ele = none → sub = none) :
    matchRefdes (sg ++ idPartS idv ++ elePartS ele sub) =
      some ⟨some sg, idv, ele.map pad2, sub.map natDigits⟩ := by
  have hmi := matchId_rebuilt (some sg) idv ele sub hid hele hes
  rcases hsg with ⟨c1, c2, hsg2, h1, h2⟩ | ⟨c1, c2, c3, hsg3, h1, h2, h3⟩
  · subst hsg2
    cases idv with
    | some i =>
        have hlb : upperDigitC '[' = false := by decide
        simp only [idPartS, List.cons_append, List.nil_append, List.append_assoc] at hmi ⊢
        simp only [matchRefdes, matchSeg, h1, h2, hlb, Bool.and_true, Bool.and_false,
          Bool.true_and, Bool.and_self, if_true, Bool.false_eq_true, if_false]
        rw [hmi]
    | none =>
        cases ele with
        | none =>
            rw [hes rfl] at hmi ⊢
            simp only [idPartS, elePartS, List.nil_append, List.append_nil] at hmi ⊢
            simp only [matchRefdes, matchSeg, h1, h2, Bool.and_self, Bool.true_and,
              if_true]
            rw [hmi]
        | some e =>
            obtain ⟨d1, d2, hpad, hd1, hd2⟩ := pad2_shape (hele e rfl)
            have hfail := matchId_fail_digit (some [c1, c2, d1]) hd2 sub
            simp only [idPartS, elePartS, hpad, List.nil_append,
              List.cons_append] at hmi ⊢
            simp only [matchRefdes, matchSeg, h1, h2, digitC_upperDigitC hd1,
              Bool.and_self, Bool.true_and, if_true]
            rw [hfail, hmi]
  · subst hsg3
    simp only [List.cons_append, List.nil_append] at hmi ⊢
    simp only [matchRefdes, matchSeg, h1, h2, h3, Bool.and_self, Bool.true_and, if_true]
    rw [hmi]

theorem matchRefdes_rebuilt_noseg (e : Nat) (sub : Option Nat) (he : e ≤ 99) :
    matchRefdes (elePartS (some e) sub) =
      some ⟨none, none, some (pad2 e), sub.map natDigits⟩ := by
  obtain ⟨d1, d2, hpad, hd1, hd2⟩ := pad2_shape he
  have hu1 : upperC d1 = false := digitC_not_upperC hd1
  have hd1b : d1 ≠ '[' := (digitC_notSpecial hd1).2.2.1
  have hsub := matchSub_rebuilt none none (some [d1, d2]) sub
  simp only [elePartS, hpad, List.cons_append, List.nil_append]
  cases sub with
  | none =>
      simp only [subPartS] at hsub ⊢
      simp [matchRefdes, matchSeg, matchId, matchEle, hu1, hd1b, hd1, hd2, hsub, hpad]
  | some u =>
      simp only [subPartS] at hsub ⊢
      simp [matchRefdes, matchSeg, matchId, matchEle, hu1, hd1b, hd1, hd2, hsub, hpad]

/-! ## Evaluating `parseTail` and `parse` -/

theorem parseTail_match {rel : Bool} {ps : Str} {ts : List Str} (hne : ts ≠ [])
    (hlast : lastD ts ≠ []) {m : RefMatch} (hm : matchRefdes (lastD ts) = some m)
    (hok1 : ¬(m.seg_id = none ∧ m.id_val ≠ none))
    (hok2 : ¬(m.seg_id = none ∧
      (m.ele_idx.map digitsToNat ≠ none ∨ m.subele_idx.map digitsToNat ≠ none) ∧
      ts.dropLast ≠ [])) :
    parseTail rel ps ts = some ⟨ts.dropLast, m.seg_id, m.id_val,
      m.ele_idx.map digitsToNat, m.subele_idx.map digitsToNat, rel, ps,
      some (lastD ts), false⟩ := by
  simp only [parseTail, if_neg hne, if_neg hlast, hm]
  rw [if_neg hok1, if_neg hok2]

theorem parseTail_nomatch {rel : Bool} {ps : Str} {ts : List Str} (hne : ts ≠ [])
    (hlast : lastD ts ≠ []) (hm : matchRefdes (lastD ts) = none) :
    parseTail rel ps ts = some ⟨ts, none, none, none, none, rel, ps, none, false⟩ := by
  simp only [parseTail, if_neg hne, if_neg hlast, hm]

theorem parseTail_endslash {rel : Bool} {ps : Str} {ts : List Str} (hne : ts ≠ [])
    (hlast : lastD ts = []) :
    parseTail rel ps ts =
      some ⟨ts.dropLast, none, none, none, none, rel, ps.dropLast, none, false⟩ := by
  simp only [parseTail, if_neg hne, if_pos hlast]

theorem parse_cons_slash (rest : Str) :
    parse ('/' :: rest) = parseTail false ('/' :: rest) (splitSep rest) := by
  simp [parse]

theorem parse_cons_ns {c : Char} (h : c ≠ '/') (rest : Str) :
    parse (c :: rest) = parseTail true (c :: rest) (splitSep (c :: rest)) := by
  simp [parse, h]

theorem parse_join_rel {ts : List Str} (hne : ts ≠ []) (hhead : ts.headD [] ≠ [])
    (hns : ∀ t ∈ ts, ∀ c ∈ t, c ≠ '/') :
    parse (joinSep ts) = parseTail true (joinSep ts) ts := by
  cases ts with
  | nil => exact absurd rfl hne
  | cons t ts' =>
      cases t with
      | nil => simp at hhead
      | cons c t' =>
          obtain ⟨r, hr⟩ := @joinSep_cons_head c t' ts'
          have hc : c ≠ '/' :=
            hns (c :: t') (List.mem_cons_self _ _) c (List.mem_cons_self _ _)
          have step : parse (joinSep ((c :: t') :: ts')) =
              parseTail true (joinSep ((c :: t') :: ts'))
                (splitSep (joinSep ((c :: t') :: ts'))) := by
            rw [hr]
            exact parse_cons_ns hc r
          rw [step, splitSep_joinSep hne hns]

theorem parse_join_abs {ts : List Str} (hne : ts ≠ [])
    (hns : ∀ t ∈ ts, ∀ c ∈ t, c ≠ '/') :
    parse ('/' :: joinSep ts) = parseTail false ('/' :: joinSep ts) ts := by
  rw [parse_cons_slash, splitSep_joinSep hne hns]

/-! ## The invariants established by a successful parse -/

theorem parseTail_shape {rel : Bool} {ps : Str} {ts : List Str} {a : X12Path}
    (hp : parseTail rel ps ts = some a)
    (hts_ns : ∀ t ∈ ts, ∀ c ∈ t, c ≠ '/')
    (hts_nl : ∀ t ∈ ts, ∀ c ∈ t, c ≠ '\n')
    (hlast : lastD ts ≠ [])
    (hhead : rel = true → ts.headD [] ≠ []) :
    ParsedShape a ∧ a.relative = rel := by
  have hne : ts ≠ [] := by
    intro h
    subst h
    exact hlast rfl
  simp only [parseTail, if_neg hne, if_neg hlast] at hp
  split at hp
  · next m heq =>
      obtain ⟨hsegS, hidS, heleS, hsubS, hallS⟩ := matchRefdes_spec heq
      split at hp
      · exact absurd hp (by simp)
      · next hok1 =>
        split at hp
        · exact absurd hp (by simp)
        · next hok2 =>
          injection hp with hp
          subst hp
          refine ⟨⟨fun t ht => hts_ns t (mem_dropLast ht), ?_, hsegS, hidS, ?_,
            ?_, ?_, ?_⟩, rfl⟩
          · intro hr hll
            simp only at hll ⊢
            rw [headD_dropLast hll]
            exact hhead hr
          · intro hseg
            simp only at hseg
            by_contra hid
            exact hok1 ⟨hseg, hid⟩
          · intro e he
            simp only [Option.map_eq_some'] at he
            obtain ⟨d, hd, rfl⟩ := he
            rcases heleS with h | ⟨d1, d2, hd', hd1, hd2⟩
            · rw [h] at hd
              exact absurd hd (by simp)
            · rw [hd'] at hd
              injection hd with hd
              subst hd
              exact two_digit_le hd1 hd2
          · intro hseg hnz
            simp only at hseg hnz ⊢
            by_contra hll
            exact hok2 ⟨hseg, by simpa using hnz, hll⟩
          · intro hseg hid hele hsub _
            simp only at hseg hid hele hsub
            have hm_ele : m.ele_idx = none := by
              rcases heleS with h | ⟨d1, d2, hd', _, _⟩
              · exact h
              · rw [hd'] at hele
                exact absurd hele (by simp)
            have hm_sub : m.subele_idx = none := by
              rcases hsubS with h | ⟨ds, hds, _, _⟩
              · exact h
              · rw [hds] at hsub
                exact absurd hsub (by simp)
            have hend := hallS ⟨hseg, hid, hm_ele, hm_sub⟩
            rcases endOk_cases hend with h | h
            · exact absurd h hlast
            · exact absurd rfl
                (hts_nl (lastD ts) (lastD_mem hne) '\n' (by rw [h]; simp))
  · next heq =>
      injection hp with hp
      subst hp
      refine ⟨⟨hts_ns, fun hr _ => hhead hr, Or.inl rfl, Or.inl rfl, fun _ => rfl,
        ?_, ?_, ?_⟩, rfl⟩
      · intro e he
        exact absurd he (by simp)
      · intro _ h
        rcases h with h | h <;> exact absurd rfl h
      · intro _ _ _ _ _
        exact heq

/-! ## Serialization support lemmas -/

theorem pad2_digits (n : Nat) : ∀ c ∈ pad2 n, digitC c = true := by
  intro c hc
  unfold pad2 at hc
  split at hc
  · rcases List.mem_cons.mp hc with rfl | hc
    · decide
    · exact (natDigits_spec n).2.2 c hc
  · exact (natDigits_spec n).2.2 c hc

theorem pad2_ne_nil (n : Nat) : pad2 n ≠ [] := by
  unfold pad2
  split
  · simp
  · exact (natDigits_spec n).2.1

theorem elePartS_no_slash (ele sub : Option Nat) :
    ∀ c ∈ elePartS ele sub, c ≠ '/' := by
  intro c hc
  cases ele with
  | none => simp [elePartS] at hc
  | some e =>
      simp only [elePartS] at hc
      rcases List.mem_append.mp hc with hc | hc
      · exact (digitC_notSpecial (pad2_digits e c hc)).1
      · cases sub with
        | none => simp [subPartS] at hc
        | some u =>
            simp only [subPartS] at hc
            rcases List.mem_cons.mp hc with rfl | hc
            · decide
            · exact (digitC_notSpecial ((natDigits_spec u).2.2 c hc)).1

theorem idPartS_no_slash (idv : Option Str)
    (hid : ∀ i, idv = some i → ∀ c ∈ i, upperDigitC c = true) :
    ∀ c ∈ idPartS idv, c ≠ '/' := by
  intro c hc
  cases idv with
  | none => simp [idPartS] at hc
  | some i =>
      simp only [idPartS] at hc
      rcases List.mem_cons.mp hc with rfl | hc
      · decide
      · rcases List.mem_append.mp hc with hc | hc
        · exact (upperDigitC_notSpecial (hid i rfl c hc)).1
        · simp at hc
          subst hc
          decide

theorem segShape_no_slash {sgv : Str} (hsg : segShape sgv) : ∀ c ∈ sgv, c ≠ '/' := by
  intro c hc
  rcases hsg with ⟨c1, c2, rfl, h1, h2⟩ | ⟨c1, c2, c3, rfl, h1, h2, h3⟩
  · rcases List.mem_cons.mp hc with rfl | hc
    · exact (upperDigitC_notSpecial (upperC_upperDigitC h1)).1
    · simp at hc
      subst hc
      exact (upperDigitC_notSpecial h2).1
  · rcases List.mem_cons.mp hc with rfl | hc
    · exact (upperDigitC_notSpecial (upperC_upperDigitC h1)).1
    · rcases List.mem_cons.mp hc with rfl | hc
      · exact (upperDigitC_notSpecial h2).1
      · simp at hc
        subst hc
        exact (upperDigitC_notSpecial h3).1

theorem segShape_ne_nil {sgv : Str} (hsg : segShape sgv) : sgv ≠ [] := by
  rcases hsg with ⟨c1, c2, rfl, _, _⟩ | ⟨c1, c2, c3, rfl, _, _, _⟩ <;> simp

theorem refdes_no_slash {sgv : Str} (idv : Option Str) (ele sub : Option Nat)
    (hsg : segShape sgv)
    (hid : ∀ i, idv = some i → ∀ c ∈ i, upperDigitC c = true) :
    ∀ c ∈ sgv ++ idPartS idv ++ elePartS ele sub, c ≠ '/' := by
  intro c hc
  rcases List.mem_append.mp hc with hc | hc
  · rcases List.mem_append.mp hc with hc | hc
    · exact segShape_no_slash hsg c hc
    · exact idPartS_no_slash idv hid c hc
  · exact elePartS_no_slash ele sub c hc

theorem elePartS_some_ne_nil (e : Nat) (sub : Option Nat) :
    elePartS (some e) sub ≠ [] := by
  simp only [elePartS]
  intro h
  rcases List.append_eq_nil.mp h with ⟨h1, _⟩
  exact pad2_ne_nil e h1

theorem map_pad2_digitsToNat (ele : Option Nat) :
    (ele.map pad2).map digitsToNat = ele := by
  cases ele <;> simp [digitsToNat_pad2]

theorem map_natDigits_digitsToNat (sub : Option Nat) :
    (sub.map natDigits).map digitsToNat = sub := by
  cases sub with
  | none => rfl
  | some u => simp [(natDigits_spec u).1]

theorem fm_path_str (p : X12Path) :
    p.fm_path.1 =
      (if truthyS p.seg_id ∧
          ((if p.relative then [] else ['/']) ++ joinSep p.loop_list) ≠ [] ∧
          ((if p.relative then [] else ['/']) ++ joinSep p.loop_list) ≠ ['/']
        then ((if p.relative then [] else ['/']) ++ joinSep p.loop_list) ++ ['/']
        else (if p.relative then [] else ['/']) ++ joinSep p.loop_list) ++
        p.fm_refdes.1 := rfl

theorem fm_refdes_str (p : X12Path) :
    p.fm_refdes.1 =
      (if truthyS p.seg_id then
        p.seg_id.getD [] ++
          (if truthyS p.id_val then '[' :: p.id_val.getD [] ++ [']'] else [])
      else []) ++
      (if truthyN p.ele_idx then
        pad2 (p.ele_idx.getD 0) ++
          (if truthyN p.subele_idx then '-' :: natDigits (p.subele_idx.getD 0) else [])
      else []) := rfl

theorem fm_refdes_seg (ll : List Str) (sgv : Str) (idv : Option Str)
    (ele sub : Option Nat) (rel : Bool) (ps : Str) (ss : Option Str) (dt : Bool)
    (hsg : sgv ≠ [])
    (hid : ∀ i, idv = some i → i ≠ [])
    (hele0 : ele ≠ some 0) (hsub0 : sub ≠ some 0) :
    (X12Path.fm_refdes ⟨ll, some sgv, idv, ele, sub, rel, ps, ss, dt⟩).1 =
      sgv ++ idPartS idv ++ elePartS ele sub := by
  have hele' : ∀ e, ele = some e → e ≠ 0 := by
    intro e he h0
    subst h0
    exact hele0 he
  have hsub' : ∀ u, sub = some u → u ≠ 0 := by
    intro u hu h0
    subst h0
    exact hsub0 hu
  cases idv with
  | none =>
      cases ele with
      | none => simp [X12Path.fm_refdes, truthyS, truthyN, idPartS, elePartS, hsg]
      | some e =>
          cases sub with
          | none =>
              simp [X12Path.fm_refdes, truthyS, truthyN, idPartS, elePartS, subPartS,
                hsg, hele' e rfl]
          | some u =>
              simp [X12Path.fm_refdes, truthyS, truthyN, idPartS, elePartS, subPartS,
                hsg, hele' e rfl, hsub' u rfl]
  | some i =>
      have hine := hid i rfl
      cases ele with
      | none => simp [X12Path.fm_refdes, truthyS, truthyN, idPartS, elePartS, hsg, hine]
      | some e =>
          cases sub with
          | none =>
              simp [X12Path.fm_refdes, truthyS, truthyN, idPartS, elePartS, subPartS,
                hsg, hine, hele' e rfl]
          | some u =>
              simp [X12Path.fm_refdes, truthyS, truthyN, idPartS, elePartS, subPartS,
                hsg, hine, hele' e rfl, hsub' u rfl]

theorem fm_refdes_noseg (ll : List Str) (ele sub : Option Nat) (rel : Bool)
    (ps : Str) (ss : Option Str) (dt : Bool)
    (hele0 : ele ≠ some 0) (hsub0 : sub ≠ some 0) :
    (X12Path.fm_refdes ⟨ll, none, none, ele, sub, rel, ps, ss, dt⟩).1 =
      elePartS ele sub := by
  have hele' : ∀ e, ele = some e → e ≠ 0 := by
    intro e he h0
    subst h0
    exact hele0 he
  have hsub' : ∀ u, sub = some u → u ≠ 0 := by
    intro u hu h0
    subst h0
    exact hsub0 hu
  cases ele with
  | none => simp [X12Path.fm_refdes, truthyS, truthyN, elePartS]
  | some e =>
      cases sub with
      | none =>
          simp [X12Path.fm_refdes, truthyS, truthyN, elePartS, subPartS, hele' e rfl]
      | some u =>
          simp [X12Path.fm_refdes, truthyS, truthyN, elePartS, subPartS, hele' e rfl,
            hsub' u rfl]

/-! ## The round-trip argument -/

theorem lastD_single (t : Str) : lastD [t] = t := rfl

theorem dropLast_cons_concat (t0 : Str) (ll' : List Str) (rd : Str) :
    (t0 :: (ll' ++ [rd])).dropLast = t0 :: ll' := by
  rw [← List.cons_append, List.dropLast_concat]

theorem roundtrip_seg (ll : List Str) (sgv : Str) (idv : Option Str)
    (ele sub : Option Nat) (rel : Bool) (ps : Str) (ss : Option Str) (dt : Bool)
    (hshape : segShape sgv)
    (hns : ∀ t ∈ ll, ∀ c ∈ t, c ≠ '/')
    (hrh : rel = true → ll ≠ [] → ll.headD [] ≠ [])
    (hidf : ∀ i, idv = some i → i ≠ [] ∧ ∀ c ∈ i, upperDigitC c = true)
    (helef : ∀ e, ele = some e → e ≤ 99)
    (hele0 : ele ≠ some 0) (hsub0 : sub ≠ some 0)
    (hesf : ele = none → sub = none)
    (h4 : ¬(rel = false ∧ ll = [[]])) :
    ∃ a', parse ((X12Path.fm_path ⟨ll, some sgv, idv, ele, sub, rel, ps, ss, dt⟩).1)
        = some a' ∧
      a'.beq ⟨ll, some sgv, idv, ele, sub, rel, ps, ss, dt⟩ = true := by
  have hsgne := segShape_ne_nil hshape
  have hrd := fm_refdes_seg ll sgv idv ele sub rel ps ss dt hsgne
    (fun i hi => (hidf i hi).1) hele0 hsub0
  obtain ⟨rd, hrddef⟩ : ∃ rd, sgv ++ idPartS idv ++ elePartS ele sub = rd := ⟨_, rfl⟩
  rw [hrddef] at hrd
  have hrdns : ∀ c ∈ rd, c ≠ '/' := by
    rw [← hrddef]
    exact refdes_no_slash idv ele sub hshape (fun i hi => (hidf i hi).2)
  have hrdne : rd ≠ [] := by
    rw [← hrddef]
    intro h
    rcases List.append_eq_nil.mp h with ⟨h1, _⟩
    rcases List.append_eq_nil.mp h1 with ⟨h2, _⟩
    exact hsgne h2
  have hrematch : matchRefdes rd =
      some ⟨some sgv, idv, ele.map pad2, sub.map natDigits⟩ := by
    rw [← hrddef]
    exact matchRefdes_rebuilt idv ele sub hshape hidf helef hesf
  have hmape := map_pad2_digitsToNat ele
  have hmaps := map_natDigits_digitsToNat sub
  have hok1 : ¬((some sgv : Option Str) = none ∧ idv ≠ none) := by simp
  cases rel with
  | true =>
      cases ll with
      | nil =>
          have hcanon :
              (X12Path.fm_path ⟨[], some sgv, idv, ele, sub, true, ps, ss, dt⟩).1
                = rd := by
            rw [fm_path_str, hrd]
            simp [joinSep]
          rw [hcanon]
          have hjr : parse rd = parseTail true rd [rd] := by
            have := @parse_join_rel [rd] (by simp)
              (by simpa using hrdne) (by simpa using hrdns)
            simpa [joinSep] using this
          rw [hjr, parseTail_match (by simp) (by simpa [lastD_single] using hrdne)
            (by simpa [lastD_single] using hrematch) hok1 (by simp)]
          refine ⟨_, rfl, ?_⟩
          simp [X12Path.beq, hmape, hmaps, lastD_single]
      | cons t0 ll' =>
          have ht0 : t0 ≠ [] := by simpa using hrh rfl (by simp)
          have hjne : joinSep (t0 :: ll') ≠ [] := joinSep_cons_ne_nil ht0
          have hjsl : joinSep (t0 :: ll') ≠ ['/'] := by
            intro h
            have := joinSep_eq_slash hns h
            rw [List.cons.injEq] at this
            exact ht0 this.1
          have hcanon :
              (X12Path.fm_path ⟨t0 :: ll', some sgv, idv, ele, sub, true, ps, ss, dt⟩).1
                = joinSep ((t0 :: ll') ++ [rd]) := by
            rw [fm_path_str, hrd]
            simp only [if_true, List.nil_append, truthyS]
            rw [if_pos ⟨by simpa using hsgne, hjne, hjsl⟩]
            rw [joinSep_concat (by simp), List.append_assoc]
            rfl
          rw [hcanon]
          have hns2 : ∀ t ∈ (t0 :: ll') ++ [rd], ∀ c ∈ t, c ≠ '/' := by
            intro t ht
            rcases List.mem_append.mp ht with ht | ht
            · exact hns t ht
            · simp at ht
              subst ht
              exact hrdns
          rw [parse_join_rel (by simp) (by rw [headD_append (by simp)]; simpa using ht0)
            hns2]
          rw [parseTail_match (by simp) (by rw [lastD_concat]; exact hrdne)
            (by rw [lastD_concat]; exact hrematch) hok1 (by simp)]
          refine ⟨_, rfl, ?_⟩
          simp [X12Path.beq, hmape, hmaps, List.dropLast_concat, dropLast_cons_concat]
  | false =>
      cases ll with
      | nil =>
          have hcanon :
              (X12Path.fm_path ⟨[], some sgv, idv, ele, sub, false, ps, ss, dt⟩).1
                = '/' :: rd := by
            rw [fm_path_str, hrd]
            simp [joinSep]
          rw [hcanon]
          have hja : parse ('/' :: rd) = parseTail false ('/' :: rd) [rd] := by
            have := @parse_join_abs [rd] (by simp) (by simpa using hrdns)
            simpa [joinSep] using this
          rw [hja, parseTail_match (by simp) (by simpa [lastD_single] using hrdne)
            (by simpa [lastD_single] using hrematch) hok1 (by simp)]
          refine ⟨_, rfl, ?_⟩
          simp [X12Path.beq, hmape, hmaps, lastD_single]
      | cons t0 ll' =>
          have hjnil : joinSep (t0 :: ll') = [] → False := by
            intro h
            rcases joinSep_eq_nil h with h | h
            · simp at h
            · exact h4 ⟨rfl, h⟩
          have hcanon :
              (X12Path.fm_path ⟨t0 :: ll', some sgv, idv, ele, sub, false, ps, ss, dt⟩).1
                = '/' :: joinSep ((t0 :: ll') ++ [rd]) := by
            rw [fm_path_str, hrd]
            simp only [Bool.false_eq_true, if_false, List.singleton_append, truthyS]
            rw [if_pos ⟨by simpa using hsgne, by simp,
              by simpa using fun h => hjnil (by simpa using h)⟩]
            rw [joinSep_concat (by simp)]
            simp
          rw [hcanon]
          have hns2 : ∀ t ∈ (t0 :: ll') ++ [rd], ∀ c ∈ t, c ≠ '/' := by
            intro t ht
            rcases List.mem_append.mp ht with ht | ht
            · exact hns t ht
            · simp at ht
              subst ht
              exact hrdns
          rw [parse_join_abs (by simp) hns2]
          rw [parseTail_match (by simp) (by rw [lastD_concat]; exact hrdne)
            (by rw [lastD_concat]; exact hrematch) hok1 (by simp)]
          refine ⟨_, rfl, ?_⟩
          simp [X12Path.beq, hmape, hmaps, List.dropLast_concat, dropLast_cons_concat]

theorem roundtrip_noseg (ll : List Str) (ele sub : Option Nat) (rel : Bool)
    (ps : Str) (ss : Option Str) (dt : Bool)
    (hns : ∀ t ∈ ll, ∀ c ∈ t, c ≠ '/')
    (hrh : rel = true → ll ≠ [] → ll.headD [] ≠ [])
    (helef : ∀ e, ele = some e → e ≤ 99)
    (hele0 : ele ≠ some 0) (hsub0 : sub ≠ some 0)
    (h3 : sub = none ∨ ele ≠ none)
    (hesll : (ele ≠ none ∨ sub ≠ none) → ll = [])
    (hlm : ele = none → sub = none → ll ≠ [] → matchRefdes (lastD ll) = none) :
    ∃ a', parse ((X12Path.fm_path ⟨ll, none, none, ele, sub, rel, ps, ss, dt⟩).1)
        = some a' ∧
      a'.beq ⟨ll, none, none, ele, sub, rel, ps, ss, dt⟩ = true := by
  have hrd := fm_refdes_noseg ll ele sub rel ps ss dt hele0 hsub0
  cases ele with
  | some e =>
      have hll : ll = [] := hesll (Or.inl (by simp))
      subst hll
      have he99 := helef e rfl
      obtain ⟨rd, hrddef⟩ : ∃ rd, elePartS (some e) sub = rd := ⟨_, rfl⟩
      rw [hrddef] at hrd
      have hrdns : ∀ c ∈ rd, c ≠ '/' := by
        rw [← hrddef]
        exact elePartS_no_slash (some e) sub
      have hrdne : rd ≠ [] := by
        rw [← hrddef]
        exact elePartS_some_ne_nil e sub
      have hrematch : matchRefdes rd =
          some ⟨none, none, some (pad2 e), sub.map natDigits⟩ := by
        rw [← hrddef]
        exact matchRefdes_rebuilt_noseg e sub he99
      have hmaps := map_natDigits_digitsToNat sub
      have hok1 : ¬((none : Option Str) = none ∧ (none : Option Str) ≠ none) := by simp
      cases rel with
      | true =>
          have hcanon :
              (X12Path.fm_path ⟨[], none, none, some e, sub, true, ps, ss, dt⟩).1
                = rd := by
            rw [fm_path_str, hrd]
            simp [joinSep, truthyS]
          rw [hcanon]
          have hjr : parse rd = parseTail true rd [rd] := by
            have := @parse_join_rel [rd] (by simp)
              (by simpa using hrdne) (by simpa using hrdns)
            simpa [joinSep] using this
          rw [hjr, parseTail_match (by simp) (by simpa [lastD_single] using hrdne)
            (by simpa [lastD_single] using hrematch) hok1 (by simp)]
          refine ⟨_, rfl, ?_⟩
          simp [X12Path.beq, hmaps, digitsToNat_pad2]
      | false =>
          have hcanon :
              (X12Path.fm_path ⟨[], none, none, some e, sub, false, ps, ss, dt⟩).1
                = '/' :: rd := by
            rw [fm_path_str, hrd]
            simp [joinSep, truthyS]
          rw [hcanon]
          have hja : parse ('/' :: rd) = parseTail false ('/' :: rd) [rd] := by
            have := @parse_join_abs [rd] (by simp) (by simpa using hrdns)
            simpa [joinSep] using this
          rw [hja, parseTail_match (by simp) (by simpa [lastD_single] using hrdne)
            (by simpa [lastD_single] using hrematch) hok1 (by simp)]
          refine ⟨_, rfl, ?_⟩
          simp [X12Path.beq, hmaps, digitsToNat_pad2]
  | none =>
      have hsubn : sub = none := by
        rcases h3 with h | h
        · exact h
        · exact absurd rfl h
      subst hsubn
      have hrdz : (X12Path.fm_refdes ⟨ll, none, none, none, none, rel, ps, ss, dt⟩).1
          = [] := by
        rw [hrd]
        rfl
      cases hllc : ll with
      | nil =>
          subst hllc
          cases rel with
          | true =>
              have hcanon :
                  (X12Path.fm_path ⟨[], none, none, none, none, true, ps, ss, dt⟩).1
                    = [] := by
                rw [fm_path_str, hrdz]
                simp [joinSep, truthyS]
              rw [hcanon]
              refine ⟨⟨[], none, none, none, none, true, [], none, false⟩,
                by simp [parse], ?_⟩
              simp [X12Path.beq]
          | false =>
              have hcanon :
                  (X12Path.fm_path ⟨[], none, none, none, none, false, ps, ss, dt⟩).1
                    = ['/'] := by
                rw [fm_path_str, hrdz]
                simp [joinSep, truthyS]
              rw [hcanon]
              have hsp : parse ['/'] = parseTail false ['/'] [[]] := by
                have := parse_cons_slash []
                simpa [splitSep] using this
              rw [hsp, @parseTail_endslash false ['/'] [[]] (by simp) rfl]
              refine ⟨_, rfl, ?_⟩
              simp [X12Path.beq]
      | cons t0 ll' =>
          rw [← hllc]
          have hllne : ll ≠ [] := by rw [hllc]; simp
          have hlm' := hlm rfl rfl hllne
          have hlastne : lastD ll ≠ [] := by
            intro h
            rw [h] at hlm'
            have : matchRefdes [] = some ⟨none, none, none, none⟩ := rfl
            rw [this] at hlm'
            exact absurd hlm' (by simp)
          cases rel with
          | true =>
              have hcanon :
                  (X12Path.fm_path ⟨ll, none, none, none, none, true, ps, ss, dt⟩).1
                    = joinSep ll := by
                rw [fm_path_str, hrdz]
                simp [truthyS]
              rw [hcanon]
              rw [parse_join_rel hllne (hrh rfl hllne) hns]
              rw [parseTail_nomatch hllne hlastne hlm']
              refine ⟨_, rfl, ?_⟩
              simp [X12Path.beq]
          | false =>
              have hcanon :
                  (X12Path.fm_path ⟨ll, none, none, none, none, false, ps, ss, dt⟩).1
                    = '/' :: joinSep ll := by
                rw [fm_path_str, hrdz]
                simp [truthyS]
              rw [hcanon]
              rw [parse_join_abs hllne hns]
              rw [parseTail_nomatch hllne hlastne hlm']
              refine ⟨_, rfl, ?_⟩
              simp [X12Path.beq]

theorem roundtrip_core {a : X12Path} (H : ParsedShape a)
    (h1 : a.ele_idx ≠ some 0) (h2 : a.subele_idx ≠ some 0)
    (h3 : a.subele_idx = none ∨ a.ele_idx ≠ none)
    (h4 : ¬(a.relative = false ∧ a.loop_list = [[]] ∧ a.seg_id ≠ none)) :
    ∃ a', parse a.fm_path.1 = some a' ∧ a'.beq a = true := by
  obtain ⟨ll, sg, idv, ele, sub, rel, ps, ss, dt⟩ := a
  obtain ⟨Hns, Hrh, Hseg, Hid, His, Hel, Hes, Hlm⟩ := H
  simp only at Hns Hrh Hseg Hid His Hel Hes Hlm h1 h2 h3 h4
  rcases Hseg with hnone | ⟨sgv, hsgv, hshape⟩
  · subst hnone
    have hidn : idv = none := His rfl
    subst hidn
    exact roundtrip_noseg ll ele sub rel ps ss dt Hns Hrh Hel h1 h2 h3
      (fun h => Hes rfl h) (fun he hs hll => Hlm rfl rfl he hs hll)
  · subst hsgv
    have hidf : ∀ i, idv = some i → i ≠ [] ∧ ∀ c ∈ i, upperDigitC c = true := by
      intro i hi
      rcases Hid with h | ⟨j, hj, hjne, hjall⟩
      · rw [h] at hi
        exact absurd hi (by simp)
      · rw [hj] at hi
        injection hi with hi
        subst hi
        exact ⟨hjne, hjall⟩
    have hesf : ele = none → sub = none := by
      intro h
      rcases h3 with h' | h'
      · exact h'
      · exact absurd h h'
    exact roundtrip_seg ll sgv idv ele sub rel ps ss dt hshape Hns Hrh hidf Hel
      h1 h2 hesf (fun ⟨ha, hb⟩ => h4 ⟨ha, hb, by simp⟩)

theorem parse_shape {s : Str} {a : X12Path} (hp : parse s = some a)
    (hend : s.getLast? ≠ some '/') (hnl : ∀ c ∈ s, c ≠ '\n') : ParsedShape a := by
  cases s with
  | nil =>
      simp only [parse] at hp
      injection hp with hp
      subst hp
      refine ⟨by simp, by simp, Or.inl rfl, Or.inl rfl, fun _ => rfl,
        fun e he => absurd he (by simp), fun _ _ => rfl,
        fun _ _ _ _ h => absurd rfl h⟩
  | cons c rest =>
      by_cases hc : c = '/'
      · subst hc
        rw [parse_cons_slash] at hp
        cases rest with
        | nil => exact absurd (by simp) hend
        | cons c1 r1 =>
            have hend' : (c1 :: r1).getLast? ≠ some '/' := by
              rwa [List.getLast?_cons_cons] at hend
            exact (parseTail_shape hp (splitSep_no_slash _)
              (fun t ht ch hcm =>
                hnl ch (List.mem_cons_of_mem _ (splitSep_chars _ t ht ch hcm)))
              (lastD_splitSep_ne (by simp) hend')
              (fun hr => absurd hr (by simp))).1
      · rw [parse_cons_ns hc] at hp
        exact (parseTail_shape hp (splitSep_no_slash _)
          (fun t ht ch hcm => hnl ch (splitSep_chars _ t ht ch hcm))
          (lastD_splitSep_ne (by simp) hend)
          (fun _ => splitSep_headD_ne (by simp) (by simp [hc]))).1

/-! ## The construction error condition -/

theorem tokensOf_slash (rest : Str) : tokensOf ('/' :: rest) = splitSep rest := rfl

theorem tokensOf_ns {c : Char} (hc : c ≠ '/') (rest : Str) :
    tokensOf (c :: rest) = splitSep (c :: rest) := by
  unfold tokensOf
  split
  · next r heq =>
      injection heq with h1 _
      exact absurd h1 hc
  · rfl

theorem parseTail_invalid_iff (rel : Bool) (ps : Str) (ts : List Str) (hne : ts ≠ []) :
    ((parseTail rel ps ts).isNone ↔
      ∃ m, matchRefdes (lastD ts) = some m ∧ m.seg_id = none ∧
        (m.id_val ≠ none ∨
          ((m.ele_idx ≠ none ∨ m.subele_idx ≠ none) ∧ ts.dropLast ≠ []))) ∧
    (matchRefdes (lastD ts) = none →
      ∃ a, parseTail rel ps ts = some a ∧ a.loop_list = ts ∧ a.seg_id = none ∧
        a.id_val = none ∧ a.ele_idx = none ∧ a.subele_idx = none) := by
  by_cases hlast : lastD ts = []
  · rw [parseTail_endslash hne hlast]
    constructor
    · constructor
      · intro h
        simp at h
      · rintro ⟨m, hm, hseg, hrest⟩
        rw [hlast] at hm
        have h0 : matchRefdes [] = some ⟨none, none, none, none⟩ := rfl
        rw [h0] at hm
        injection hm with hm
        subst hm
        rcases hrest with h | ⟨h, _⟩
        · exact (h rfl).elim
        · rcases h with h | h <;> exact (h rfl).elim
    · intro h
      rw [hlast] at h
      exact absurd h (by decide)
  · cases hm : matchRefdes (lastD ts) with
    | some m =>
        constructor
        · simp only [parseTail, if_neg hne, if_neg hlast, hm]
          by_cases herr1 : m.seg_id = none ∧ m.id_val ≠ none
          · rw [if_pos herr1]
            exact ⟨fun _ => ⟨m, rfl, herr1.1, Or.inl herr1.2⟩, fun _ => rfl⟩
          · rw [if_neg herr1]
            by_cases herr2 : m.seg_id = none ∧
                (m.ele_idx.map digitsToNat ≠ none ∨ m.subele_idx.map digitsToNat ≠ none) ∧
                ts.dropLast ≠ []
            · rw [if_pos herr2]
              refine ⟨fun _ => ⟨m, rfl, herr2.1, Or.inr ⟨?_, herr2.2.2⟩⟩, fun _ => rfl⟩
              rcases herr2.2.1 with h | h
              · exact Or.inl (by simpa [Option.map_eq_none'] using h)
              · exact Or.inr (by simpa [Option.map_eq_none'] using h)
            · rw [if_neg herr2]
              constructor
              · intro h
                simp at h
              · rintro ⟨m', hm', hseg, hrest⟩
                injection hm' with hm'
                subst hm'
                exfalso
                rcases hrest with h | ⟨h, hdl⟩
                · exact herr1 ⟨hseg, h⟩
                · refine herr2 ⟨hseg, ?_, hdl⟩
                  rcases h with h | h
                  · exact Or.inl (by simpa [Option.map_eq_none'] using h)
                  · exact Or.inr (by simpa [Option.map_eq_none'] using h)
        · intro h
          exact absurd h (by simp)
    | none =>
        rw [parseTail_nomatch hne hlast hm]
        constructor
        · constructor
          · intro h
            simp at h
          · rintro ⟨m, hm', _⟩
            exact absurd hm' (by simp)
        · intro _
          exact ⟨_, rfl, rfl, rfl, rfl, rfl, rfl⟩

theorem parseTail_seg_str_none {rel : Bool} {ps : Str} {ts : List Str} {a : X12Path}
    (hp : parseTail rel ps ts = some a)
    (hcond : matchRefdes (lastD ts) = none ∨ lastD ts = []) :
    a.seg_str = none ∧ a.dirty = false := by
  by_cases hne : ts = []
  · simp only [parseTail, if_pos hne] at hp
    injection hp with hp
    subst hp
    exact ⟨rfl, rfl⟩
  · by_cases hlast : lastD ts = []
    · rw [parseTail_endslash hne hlast] at hp
      injection hp with hp
      subst hp
      exact ⟨rfl, rfl⟩
    · rcases hcond with h | h
      · rw [parseTail_nomatch hne hlast h] at hp
        injection hp with hp
        subst hp
        exact ⟨rfl, rfl⟩
      · exact absurd h hlast

/-! ## The claims -/

/-- C1: the claim says `X == Y` on equal field tuples and that the hash is
computed from that same field tuple so that `hash(X) == hash(Y)`.  The code
computes `__hash__` as the string hash of `__repr__()`, i.e. of the
(possibly cached) formatted string.  At the failing input below the two
addresses are `==` (equal field tuples) but their hash keys are the
distinct strings "SEG00" and "SEG", so their Python hashes differ: the
address parsed from "SEG00" keeps the fresh cache "SEG00", while
re-assigning `seg_id` to the same value marks the cache stale and the next
`format()` drops the zero element index. -/
theorem c1_eq_true_but_hash_keys_differ :
    X12Path.beq (parseD ("SEG00".toList))
        ((parseD ("SEG00".toList)).set_seg_id (some ("SEG".toList))) = true ∧
    X12Path.hashKey (parseD ("SEG00".toList)) ≠
      X12Path.hashKey ((parseD ("SEG00".toList)).set_seg_id (some ("SEG".toList))) := by
  decide

/-- C2: construction raises `X12PathError` (modelled by `parse s = none`)
exactly when the trailing token matches the refdes grammar and carries a
qualifier without a segment identifier, or carries an element or
sub-element index without a segment identifier while the remaining loop
list is non-empty; and whenever the trailing token fails the grammar,
construction succeeds with the token kept in `loops` and all four
ref-designator fields unset. -/
theorem c2_invalid_path_iff : ∀ s : Str,
    ((parse s).isNone ↔ raisesCond s) ∧
    (matchRefdes (lastTok s) = none →
      ∃ a, parse s = some a ∧ a.loop_list = tokensOf s ∧ a.seg_id = none ∧
        a.id_val = none ∧ a.ele_idx = none ∧ a.subele_idx = none) := by
  intro s
  cases s with
  | nil => exact ⟨by decide, fun h => absurd h (by decide)⟩
  | cons c rest =>
      by_cases hc : c = '/'
      · subst hc
        have h := parseTail_invalid_iff false ('/' :: rest) (splitSep rest)
          (splitSep_ne_nil rest)
        rw [parse_cons_slash]
        simpa [raisesCond, lastTok, tokensOf_slash] using h
      · have h := parseTail_invalid_iff true (c :: rest) (splitSep (c :: rest))
          (splitSep_ne_nil _)
        rw [parse_cons_ns hc]
        simpa [raisesCond, lastTok, tokensOf_ns hc] using h

/-- C2 witness: the input "A/b" has a trailing token that fails the grammar
(lowercase), so construction succeeds, keeps the token in `loops` and
leaves the ref-designator fields unset. -/
theorem c2_invalid_path_iff_witness :
    ∃ a, parse ("A/b".toList) = some a ∧
      a.loop_list = tokensOf ("A/b".toList) ∧ a.seg_id = none ∧
      a.id_val = none ∧ a.ele_idx = none ∧ a.subele_idx = none :=
  (c2_invalid_path_iff ("A/b".toList)).2 (by decide)

/-- C3 counterexample: the claimed recipe appends the element index
whenever it is set, including the value 0; the code uses truthiness and
drops a zero element index.  For the address parsed from "SEG00" the
recomputed string is "SEG" while the claimed recipe yields "SEG00". -/
theorem c3_recipe_counterexample :
    (X12Path.fm_path (parseD ("SEG00".toList))).1 ≠
      specFmPath (parseD ("SEG00".toList)) := by
  decide

/-- C3 amended: the recomputed canonical string is the leading separator
exactly when not relative, the loops joined by the separator, a separator
before the ref-designator when `segment_id` is set and non-empty and the
serialized prefix is neither empty nor a lone separator, then the segment
id and bracketed qualifier when set and non-empty, then the element index
zero-padded to two digits when set and non-zero, then '-' plus the
sub-element index when the element index was printed and the sub-element
index is set and non-zero. -/
theorem c3_recipe_amended : ∀ p : X12Path, p.fm_path.1 = fmPathAmended p := by
  intro p
  rw [fm_path_str, fm_refdes_str]
  unfold fmPathAmended
  by_cases hC : truthyS p.seg_id = true ∧
      ((if p.relative then [] else ['/']) ++ joinSep p.loop_list) ≠ [] ∧
      ((if p.relative then [] else ['/']) ++ joinSep p.loop_list) ≠ ['/']
  · rw [if_pos hC, if_pos hC]
    simp [List.append_assoc]
  · rw [if_neg hC, if_neg hC]
    simp [List.append_assoc]

/-- C4 counterexample: the address parsed from "02" satisfies the claimed
emptiness conditions (relative, no loops, no segment id), yet `empty`
returns false: the code also requires the element index to be unset. -/
theorem c4_empty_counterexample :
    (parseD ("02".toList)).relative = true ∧ (parseD ("02".toList)).loop_list = [] ∧
    (parseD ("02".toList)).seg_id = none ∧ (parseD ("02".toList)).empty = false := by
  decide

/-- C4 amended: `empty()` is true iff `is_relative` is true, `loops` is
empty, `segment_id` is unset and `element_index` is unset; the qualifier
and the sub-element index do not affect the result. -/
theorem c4_empty_amended : ∀ p : X12Path,
    (p.empty = true ↔
      p.relative = true ∧ p.loop_list = [] ∧ p.seg_id = none ∧ p.ele_idx = none) ∧
    (∀ (q : Option Str) (u : Option Nat),
      X12Path.empty { p with id_val := q, subele_idx := u } = p.empty) := by
  intro p
  constructor
  · simp [X12Path.empty]
  · intro q u
    simp [X12Path.empty]

/-- C5 counterexample: the claim says `pop_loop` marks the cache stale; on
the freshly parsed address "/A/B/SEG" (whose flag is clear) popping the
front loop leaves the staleness flag clear. -/
theorem c5_pop_counterexample :
    ((parseD ("/A/B/SEG".toList)).pop_loop).map (fun r => r.2.dirty) = some false := by
  decide

/-- C5 amended: each of the six field setters and `append` set the
cache-invalidation flag, `append` extends `loops` with the
separator-split suffix, and `pop_loop` removes and returns the first loop
but leaves the staleness flag unchanged, instead textually deleting every
occurrence of the loop followed by the separator from the cached string. -/
theorem c5_mutators_amended : ∀ (p : X12Path) (v : List Str) (w : Option Str)
    (n : Option Nat) (b : Bool) (l : Str),
    (p.set_loop_list v).dirty = true ∧ (p.set_seg_id w).dirty = true ∧
    (p.set_id_val w).dirty = true ∧ (p.set_ele_idx n).dirty = true ∧
    (p.set_subele_idx n).dirty = true ∧ (p.set_relative b).dirty = true ∧
    (p.append l).dirty = true ∧ (p.append l).loop_list = p.loop_list ++ splitSep l ∧
    (p.loop_list ≠ [] → ∃ p', p.pop_loop = some (p.loop_list.headD [], p') ∧
      p'.loop_list = p.loop_list.tail ∧ p'.dirty = p.dirty ∧
      p'.path_str = pyReplaceDel p.path_str (p.loop_list.headD [] ++ ['/'])) := by
  intro p v w n b l
  refine ⟨rfl, rfl, rfl, rfl, rfl, rfl, rfl, rfl, ?_⟩
  intro h
  rcases hll : p.loop_list with _ | ⟨l0, rest⟩
  · exact absurd hll h
  · refine ⟨{ p with
                loop_list := rest,
                path_str := pyReplaceDel p.path_str (l0 ++ ['/']) }, ?_, ?_, ?_, ?_⟩
    · simp [X12Path.pop_loop, hll]
    · simp [hll]
    · rfl
    · simp [hll]

/-- C5 witness: applying the amended statement to the address parsed from
"/A/B/SEG", whose loop list is non-empty. -/
theorem c5_mutators_amended_witness :
    ∃ p', (parseD ("/A/B/SEG".toList)).pop_loop =
        some ((parseD ("/A/B/SEG".toList)).loop_list.headD [], p') ∧
      p'.loop_list = (parseD ("/A/B/SEG".toList)).loop_list.tail ∧
      p'.dirty = (parseD ("/A/B/SEG".toList)).dirty ∧
      p'.path_str = pyReplaceDel (parseD ("/A/B/SEG".toList)).path_str
        ((parseD ("/A/B/SEG".toList)).loop_list.headD [] ++ ['/']) :=
  (c5_mutators_amended (parseD ("/A/B/SEG".toList)) [] none none false []).2.2.2.2.2.2.2.2
    (by decide)

/-- C6: `is_child_path` is a strict textual-prefix test on the formatted
string, and the four cited examples behave as stated (in particular
"/LOOP1" is reported a parent of "/LOOP10": no boundary check). -/
theorem c6_child_prefix :
    (∀ (p : X12Path) (c : Str),
      p.is_child_path c = true ↔
        (p.format.1).length < c.length ∧ (p.format.1).isPrefixOf c = true) ∧
    (parseD ("/A".toList)).is_child_path ("/A/B".toList) = true ∧
    (parseD ("/A/B".toList)).is_child_path ("/A".toList) = false ∧
    (parseD ("/A".toList)).is_child_path ("/A".toList) = false ∧
    (parseD ("/LOOP1".toList)).is_child_path ("/LOOP10".toList) = true := by
  refine ⟨?_, by decide, by decide, by decide, by decide⟩
  intro p c
  simp [X12Path.is_child_path, Bool.and_eq_true, decide_eq_true_iff]

/-- C7 counterexample: the round trip fails as stated.  The input "00"
does not end with the separator and parses without error (element index
0), but the re-derived canonical string is empty, and re-parsing it yields
an address with no element index, not structurally equal to the
original. -/
theorem c7_roundtrip_counterexample :
    ("00".toList).getLast? ≠ some '/' ∧ (parse ("00".toList)).isSome = true ∧
    (parse ((parseD ("00".toList)).fm_path.1)).isSome = true ∧
    X12Path.beq (parseD ((parseD ("00".toList)).fm_path.1)) (parseD ("00".toList))
      = false := by
  decide

/-- C7 amended: for every input that does not end with the separator,
contains no newline, and parses without error, re-parsing the re-derived
canonical string yields a structurally equal address, provided the parsed
element and sub-element indices are not 0, a sub-element index only occurs
together with an element index, and the address is not the absolute one
whose loop list is the single empty loop with a segment id (parsed from
"//SEG..."), whose canonical string collapses the empty loop. -/
theorem c7_roundtrip_amended : ∀ (s : Str) (a : X12Path), parse s = some a →
    s.getLast? ≠ some '/' → (∀ c ∈ s, c ≠ '\n') →
    a.ele_idx ≠ some 0 → a.subele_idx ≠ some 0 →
    (a.subele_idx = none ∨ a.ele_idx ≠ none) →
    ¬(a.relative = false ∧ a.loop_list = [[]] ∧ a.seg_id ≠ none) →
    ∃ a', parse a.fm_path.1 = some a' ∧ a'.beq a = true := by
  intro s a hp hend hnl h1 h2 h3 h4
  exact roundtrip_core (parse_shape hp hend hnl) h1 h2 h3 h4

/-- C7 witness: the amended round trip applied to "/LOOP/SEG[AB]03-2". -/
theorem c7_roundtrip_amended_witness :
    ∃ a', parse ((parseD ("/LOOP/SEG[AB]03-2".toList)).fm_path.1) = some a' ∧
      a'.beq (parseD ("/LOOP/SEG[AB]03-2".toList)) = true :=
  c7_roundtrip_amended ("/LOOP/SEG[AB]03-2".toList)
    (parseD ("/LOOP/SEG[AB]03-2".toList)) (by decide) (by decide) (by decide)
    (by decide) (by decide) (by decide) (by decide)

/-- C8: parsing "/LOOP_1/LOOP_2/SEG[424]02-1" yields loops
["LOOP_1", "LOOP_2"], segment id "SEG", qualifier "424", element index 2,
sub-element index 1, and an absolute (non-relative) address. -/
theorem c8_parse_example :
    parse ("/LOOP_1/LOOP_2/SEG[424]02-1".toList) = some
      ⟨["LOOP_1".toList, "LOOP_2".toList], some ("SEG".toList), some ("424".toList),
        some 2, some 1, false, "/LOOP_1/LOOP_2/SEG[424]02-1".toList,
        some ("SEG[424]02-1".toList), false⟩ := by
  decide

/-- C9: `pop_loop` on an address with an empty loop list raises an
unhandled `UnboundLocalError` (modelled by `none`): the local holding the
removed loop is only assigned when the list is non-empty, yet is used
unconditionally afterwards.  On a non-empty list it returns a value. -/
theorem c9_pop_empty_raises : ∀ p : X12Path, p.pop_loop = none ↔ p.loop_list = [] := by
  intro p
  rcases hll : p.loop_list with _ | ⟨l0, rest⟩
  · simp [X12Path.pop_loop, hll]
  · simp [X12Path.pop_loop, hll]

/-- C10: on a freshly constructed address whose trailing token failed the
refdes grammar, or whose input ended with the separator, or whose input
was empty, `format_refdes` reads the never-assigned `_seg_str` attribute
with the cache fresh, so it raises an `AttributeError` (modelled by a
`none` result) instead of returning a string. -/
theorem c10_format_refdes_raises : ∀ (s : Str) (a : X12Path), parse s = some a →
    (matchRefdes (lastTok s) = none ∨ s = [] ∨ s.getLast? = some '/') →
    a.format_refdes = (none, a) := by
  intro s a hp hcond
  have key : a.seg_str = none ∧ a.dirty = false := by
    cases s with
    | nil =>
        simp only [parse] at hp
        injection hp with hp
        subst hp
        exact ⟨rfl, rfl⟩
    | cons c rest =>
        have hLT : matchRefdes (lastTok (c :: rest)) = none ∨
            lastTok (c :: rest) = [] := by
          rcases hcond with h | h | h
          · exact Or.inl h
          · simp at h
          · right
            by_cases hc : c = '/'
            · subst hc
              rw [lastTok, tokensOf_slash]
              cases rest with
              | nil => rfl
              | cons c1 r1 =>
                  exact lastD_splitSep_ends_slash (by rwa [List.getLast?_cons_cons] at h)
            · rw [lastTok, tokensOf_ns hc]
              exact lastD_splitSep_ends_slash h
        by_cases hc : c = '/'
        · subst hc
          rw [parse_cons_slash] at hp
          rw [lastTok, tokensOf_slash] at hLT
          exact parseTail_seg_str_none hp hLT
        · rw [parse_cons_ns hc] at hp
          rw [lastTok, tokensOf_ns hc] at hLT
          exact parseTail_seg_str_none hp hLT
  rw [X12Path.format_refdes, if_neg (by simp [key.2]), key.1]

/-- C10 witness: the input "x" (a trailing token failing the grammar)
parses, and reading the ref-designator then raises. -/
theorem c10_format_refdes_raises_witness :
    (parseD ("x".toList)).format_refdes = (none, parseD ("x".toList)) :=
  c10_format_refdes_raises ("x".toList) (parseD ("x".toList)) (by decide)
    (Or.inl (by decide))
